import Mathlib

/-!
# vendir: release acquisition (`GithubReleaseSync`) and `sort-semver` option handling

A shallow embedding of

* `pkg/vendir/cmd/sort_semver.go` (`SortSemverOptions.versions`, `prereleaseConf`),
* `pkg/vendir/directory/github_release_sync.go` (`Sync`, `downloadRelease`, `downloadFile`,
  `checkFileSize`, `checkFileChecksum`, `AssetNames`),

together with the parts of the Go standard library these functions call
(`strings.Fields`, `filepath.Join`, the `os` file operations, `crypto/sha256`), and of
`ReleaseNotesChecksums.Find`, whose source is not part of the files at hand.
-/

set_option autoImplicit false
set_option maxRecDepth 100000

namespace Vendir

/-! ## Go standard library: `unicode.IsSpace` and `strings.Fields` -/

/-- Go `unicode.IsSpace`: the Unicode White_Space property. -/
def isSpace (c : Char) : Bool :=
  let n := c.toNat
  (9 ≤ n && n ≤ 13) || n == 0x20 || n == 0x85 || n == 0xA0 || n == 0x1680 ||
    (0x2000 ≤ n && n ≤ 0x200A) || n == 0x2028 || n == 0x2029 || n == 0x202F ||
    n == 0x205F || n == 0x3000

/-- Scanning loop of `strings.Fields`: `cur` holds the characters of the field being read,
newest first; a white space character closes the field. -/
def fieldsLoop : List Char → List Char → List (List Char)
  | cur, [] => if cur = [] then [] else [cur.reverse]
  | cur, c :: cs =>
    if isSpace c then
      if cur = [] then fieldsLoop [] cs else cur.reverse :: fieldsLoop [] cs
    else fieldsLoop (c :: cur) cs

/-- Go `strings.Fields`: splits around each run of white space characters. -/
def Fields (s : String) : List String :=
  (fieldsLoop [] s.data).map String.mk

/-! ## `pkg/vendir/cmd/sort_semver.go` -/

/-- The type `v1alpha1.VersionSelectionSemverPrereleases`. -/
structure VersionSelectionSemverPrereleases where
  Identifiers : List String
  deriving DecidableEq, Repr

structure SortSemverOptions where
  Constraints : List String
  Versions : List String
  Prerelease : Bool
  PrereleaseIdentifiers : List String
  deriving DecidableEq, Repr

/-- `SortSemverOptions.versions`: `vers = append(vers, strings.Fields(ver)...)` for each
entry of `o.Versions`. -/
def SortSemverOptions.versions (o : SortSemverOptions) : List String :=
  o.Versions.foldl (fun vers ver => vers ++ Fields ver) []

/-- `SortSemverOptions.prereleaseConf`; the nil pointer is `none`. -/
def SortSemverOptions.prereleaseConf (o : SortSemverOptions) :
    Option VersionSelectionSemverPrereleases :=
  if o.Prerelease || o.PrereleaseIdentifiers.length > 0 then
    some { Identifiers := o.PrereleaseIdentifiers }
  else none

/-! ## Go standard library: `path/filepath` on a Unix system -/

/-- Go `strings.Split(s, sep)` for a one-character separator, on the characters of `s`. -/
def splitChar (sep : Char) : List Char → List (List Char)
  | [] => [[]]
  | c :: cs =>
    if c = sep then [] :: splitChar sep cs
    else ((c :: (splitChar sep cs).headD [])) :: (splitChar sep cs).tail

/-- One path element applied to the elements kept so far (newest first), by the rules of
`filepath.Clean`: empty and `.` elements are dropped, `..` removes the element before it, is
dropped at the root, and is kept at the start of a relative path. -/
def cleanStep (rooted : Bool) (stack : List (List Char)) (comp : List Char) :
    List (List Char) :=
  if comp = [] ∨ comp = ['.'] then stack
  else if comp = ['.', '.'] then
    match stack with
    | [] => if rooted then [] else [comp]
    | top :: rest => if top = ['.', '.'] then comp :: stack else rest
  else comp :: stack

/-- Go `strings.Join(elems, sep)` for a one-character separator. -/
def joinChar (sep : Char) : List (List Char) → List Char
  | [] => []
  | [x] => x
  | x :: y :: rest => x ++ sep :: joinChar sep (y :: rest)

/-- Go `filepath.Clean` on the characters of a path. -/
def cleanChars (s : List Char) : List Char :=
  let rooted := s.head? = some '/'
  let stack := (splitChar '/' s).foldl (cleanStep rooted) []
  let out := (if rooted then ['/'] else []) ++ joinChar '/' stack.reverse
  if out = [] then ['.'] else out

/-- Go `filepath.Clean`. -/
def filepathClean (s : String) : String := String.mk (cleanChars s.data)

/-- Go `filepath.Join`: leading empty elements are ignored, the rest is joined with slashes
and cleaned; the result is empty when every element is. -/
def filepathJoin (elem : List String) : String :=
  match elem.dropWhile (fun e => e = "") with
  | [] => ""
  | es => String.mk (cleanChars (joinChar '/' (es.map String.data)))

/-! ## File system -/

/-- File contents: a list of byte values. -/
abbrev Bytes := List Nat

inductive Node where
  | dir
  | file (content : Bytes)
  deriving DecidableEq, Repr

/-- An absolute path, resolved to its list of names from the root. -/
abbrev Path := List String

/-- A file system: the node at each absolute path. The root `[]` is always a directory. -/
abbrev FS := Path → Option Node

/-- One path element followed from the directory `dir`, without symbolic links. -/
def resolveStep (dir : List (List Char)) (comp : List Char) : List (List Char) :=
  if comp = [] ∨ comp = ['.'] then dir
  else if comp = ['.', '.'] then dir.dropLast
  else dir ++ [comp]

/-- The absolute path a path string names for a process whose working directory is `cwd`,
read element by element, a `..` element dropping the name before it. This is where the kernel
arrives for a path as `filepath.Clean` leaves it, in a file system without symbolic links:
the `..` elements of such a path all come first and climb from the working directory. Where
`..` follows a name that does not exist the kernel fails with ENOENT instead. -/
def resolve (cwd : Path) (s : String) : Path :=
  let start := if s.data.head? = some '/' then [] else cwd.map String.data
  ((splitChar '/' s.data).foldl resolveStep start).map String.mk

/-! ## Go standard library: `crypto/sha256` (FIPS 180-4) and `%x` formatting -/

def rotr (x n : Nat) : Nat := ((x >>> n) ||| (x <<< (32 - n))) % 2 ^ 32

def sha256K : List Nat := [
  0x428a2f98, 0x71374491, 0xb5c0fbcf, 0xe9b5dba5, 0x3956c25b, 0x59f111f1, 0x923f82a4, 0xab1c5ed5,
  0xd807aa98, 0x12835b01, 0x243185be, 0x550c7dc3, 0x72be5d74, 0x80deb1fe, 0x9bdc06a7, 0xc19bf174,
  0xe49b69c1, 0xefbe4786, 0x0fc19dc6, 0x240ca1cc, 0x2de92c6f, 0x4a7484aa, 0x5cb0a9dc, 0x76f988da,
  0x983e5152, 0xa831c66d, 0xb00327c8, 0xbf597fc7, 0xc6e00bf3, 0xd5a79147, 0x06ca6351, 0x14292967,
  0x27b70a85, 0x2e1b2138, 0x4d2c6dfc, 0x53380d13, 0x650a7354, 0x766a0abb, 0x81c2c92e, 0x92722c85,
  0xa2bfe8a1, 0xa81a664b, 0xc24b8b70, 0xc76c51a3, 0xd192e819, 0xd6990624, 0xf40e3585, 0x106aa070,
  0x19a4c116, 0x1e376c08, 0x2748774c, 0x34b0bcb5, 0x391c0cb3, 0x4ed8aa4a, 0x5b9cca4f, 0x682e6ff3,
  0x748f82ee, 0x78a5636f, 0x84c87814, 0x8cc70208, 0x90befffa, 0xa4506ceb, 0xbef9a3f7, 0xc67178f2]

def sha256Init : List Nat :=
  [0x6a09e667, 0xbb67ae85, 0x3c6ef372, 0xa54ff53a, 0x510e527f, 0x9b05688c, 0x1f83d9ab, 0x5be0cd19]

/-- Message with the FIPS 180-4 padding: a 0x80 byte, zero bytes up to 56 mod 64, and the
bit length as eight big-endian bytes. -/
def sha256Pad (msg : Bytes) : Bytes :=
  let n := msg.length
  let zeros := (55 + 64 - n % 64) % 64
  let bits := 8 * n
  msg.map (· % 256) ++ [0x80] ++ List.replicate zeros 0 ++
    (List.range 8).map (fun i => (bits >>> (8 * (7 - i))) % 256)

/-- Big-endian 32-bit words of a byte string whose length is a multiple of four. -/
def beWords : Bytes → List Nat
  | a :: b :: c :: d :: rest => (a * 2 ^ 24 + b * 2 ^ 16 + c * 2 ^ 8 + d) :: beWords rest
  | _ => []

/-- Message schedule, kept newest-first: extends `w` by `n` words. -/
def sha256Schedule : Nat → List Nat → List Nat
  | 0, w => w
  | n + 1, w =>
    let w2 := w.getD 1 0
    let w7 := w.getD 6 0
    let w15 := w.getD 14 0
    let w16 := w.getD 15 0
    let s0 := rotr w15 7 ^^^ rotr w15 18 ^^^ (w15 >>> 3)
    let s1 := rotr w2 17 ^^^ rotr w2 19 ^^^ (w2 >>> 10)
    sha256Schedule n (((s1 + w7 + s0 + w16) % 2 ^ 32) :: w)

structure ShaState where
  a : Nat
  b : Nat
  c : Nat
  d : Nat
  e : Nat
  f : Nat
  g : Nat
  h : Nat

def sha256Round (s : ShaState) (kw : Nat × Nat) : ShaState :=
  let S1 := rotr s.e 6 ^^^ rotr s.e 11 ^^^ rotr s.e 25
  let ch := (s.e &&& s.f) ^^^ ((s.e ^^^ (2 ^ 32 - 1)) &&& s.g)
  let t1 := (s.h + S1 + ch + kw.1 + kw.2) % 2 ^ 32
  let S0 := rotr s.a 2 ^^^ rotr s.a 13 ^^^ rotr s.a 22
  let maj := (s.a &&& s.b) ^^^ (s.a &&& s.c) ^^^ (s.b &&& s.c)
  let t2 := (S0 + maj) % 2 ^ 32
  { a := (t1 + t2) % 2 ^ 32, b := s.a, c := s.b, d := s.c,
    e := (s.d + t1) % 2 ^ 32, f := s.e, g := s.f, h := s.g }

def sha256Block (hs : List Nat) (block : List Nat) : List Nat :=
  let w := (sha256Schedule 48 block.reverse).reverse
  let s0 : ShaState :=
    { a := hs.getD 0 0, b := hs.getD 1 0, c := hs.getD 2 0, d := hs.getD 3 0,
      e := hs.getD 4 0, f := hs.getD 5 0, g := hs.getD 6 0, h := hs.getD 7 0 }
  let s := (sha256K.zip w).foldl sha256Round s0
  List.zipWith (fun x y => (x + y) % 2 ^ 32) hs [s.a, s.b, s.c, s.d, s.e, s.f, s.g, s.h]

/-- Blocks of sixteen words; `fuel` bounds the number of blocks. -/
def sha256Blocks : Nat → List Nat → List Nat → List Nat
  | 0, hs, _ => hs
  | fuel + 1, hs, ws =>
    if ws.length < 16 then hs
    else sha256Blocks fuel (sha256Block hs (ws.take 16)) (ws.drop 16)

/-- The 32 bytes of `sha256.Sum256(msg)`. -/
def sha256Sum (msg : Bytes) : Bytes :=
  let ws := beWords (sha256Pad msg)
  let hs := sha256Blocks (ws.length / 16) sha256Init ws
  hs.flatMap (fun x => [(x >>> 24) % 256, (x >>> 16) % 256, (x >>> 8) % 256, x % 256])

def hexDigit (n : Nat) : Char :=
  if n < 10 then Char.ofNat (48 + n) else Char.ofNat (87 + n)

/-- Lower-case hex as printed by `fmt.Sprintf("%x", bytes)`. -/
def hexLower (bs : Bytes) : String :=
  String.mk (bs.flatMap (fun b => [hexDigit (b / 16 % 16), hexDigit (b % 16)]))

/-! ## The environment of one run

Every network and file system call of a run is numbered by a clock. The environment decides
for each call whether it fails, and what the network answers. -/

/-- A failure injected into a system call. `progress` says how far a call that is not atomic
got before failing (directories made by `os.MkdirAll`, bytes written by `io.Copy`);
`survives` says which entries a failing `os.RemoveAll` had not removed yet. -/
structure Fault where
  msg : String
  progress : Nat
  survives : Path → Bool

/-- What `http.Get` returns when there is no transport error: the status code and the body
stream, which yields `Body` and then either ends or fails with `BodyErr`. -/
structure HttpResponse where
  StatusCode : Nat
  Body : Bytes
  BodyErr : Option String

structure GithubReleaseAssetAPI where
  Name : String
  Size : Int
  BrowserDownloadURL : String
  deriving DecidableEq, Repr

structure GithubReleaseAPI where
  URL : String
  Body : String
  Assets : List GithubReleaseAssetAPI
  deriving DecidableEq, Repr

/-- `GithubReleaseAPI.AssetNames`. -/
def GithubReleaseAPI.AssetNames (a : GithubReleaseAPI) : List String :=
  a.Assets.foldl (fun result asset => result ++ [asset.Name]) []

/-- The fields of `ConfigContentsGithubRelease` that `GithubReleaseSync` reads. -/
structure ConfigContentsGithubRelease where
  Slug : String
  Tag : String
  DisableChecksumValidation : Bool
  deriving DecidableEq, Repr

structure LockConfigContentsGithubRelease where
  URL : String
  deriving DecidableEq, Repr

structure GithubReleaseSync where
  opts : ConfigContentsGithubRelease
  deriving DecidableEq, Repr

/-- Everything a run of `Sync` depends on besides the file system.

* `cwd`: the working directory of the process;
* `incomingTmpDir`: the package-level staging root, declared outside the files at hand;
* `fault`: the failure, if any, of the system call made at a clock value;
* `httpGet`: the answer of `http.Get` at a clock value;
* `jsonUnmarshal`: `json.Unmarshal` into a `GithubReleaseAPI`;
* `findChecksums`: `ReleaseNotesChecksums{}.Find`;
* `dirSize`: the size `os.Stat` reports for a directory. -/
structure Env where
  cwd : Path
  incomingTmpDir : String
  fault : Nat → Option Fault
  httpGet : Nat → String → Except String HttpResponse
  jsonUnmarshal : Bytes → Except String GithubReleaseAPI
  findChecksums : List String → String → Except String (List (String × String))
  dirSize : Nat

/-- The state a run acts on: the file system and the number of calls made so far. -/
structure World where
  fs : FS
  clock : Nat

def World.tick (w : World) : World := { w with clock := w.clock + 1 }

/-- Lookup in a Go `map[string]string`: the empty string for a missing key. -/
def mapGet (m : List (String × String)) (key : String) : String :=
  (m.lookup key).getD ""

/-- A function either returns or panics. -/
inductive Outcome (α : Type) where
  | ret (a : α)
  | panic (msg : String)
  deriving DecidableEq, Repr

/-! ## Go standard library: `os` and `io` calls -/

/-- The node a path names; the root is a directory. -/
def nodeAt (fs : FS) (p : Path) : Option Node :=
  if p = [] then some Node.dir else fs p

def isFileNode : Option Node → Bool
  | some (Node.file _) => true
  | _ => false

/-- The file system with directories made at the missing non-root prefixes of `p` of length
at most `k`. -/
def mkdirUpTo (fs : FS) (p : Path) (k : Nat) : FS := fun q =>
  if q.isPrefixOf p && decide (q ≠ []) && decide (q.length ≤ k) && (fs q).isNone then
    some Node.dir
  else fs q

/-- `os.MkdirAll(path, perm)`: fails, changing nothing, if the path or one of its ancestors
is a file; a failing call may have made some of the missing ancestors. -/
def osMkdirAll (env : Env) (path : String) (w : World) : Option String × World :=
  let p := resolve env.cwd path
  if p.inits.any (fun q => isFileNode (nodeAt w.fs q)) then
    (some ("mkdir " ++ path ++ ": not a directory"), w.tick)
  else
    match env.fault w.clock with
    | some f =>
      (some f.msg, { fs := mkdirUpTo w.fs p (min f.progress (p.length - 1)),
                     clock := w.clock + 1 })
    | none => (none, { fs := mkdirUpTo w.fs p p.length, clock := w.clock + 1 })

/-- The check `endsWithDot` of `os.RemoveAll`. -/
def endsWithDot (path : String) : Bool :=
  path = "." || (match path.data.reverse with
    | '.' :: '/' :: _ => true
    | _ => false)

/-- `os.RemoveAll(path)`: removes the path and everything below it. An empty path is accepted
and does nothing, a path ending in a dot element is refused, and a failing call leaves the
entries it had not reached. The path is read by `resolve`, as the kernel reads a path that
`filepath.Clean` leaves as it is. -/
def osRemoveAll (env : Env) (path : String) (w : World) : Option String × World :=
  if path = "" then (none, w.tick)
  else if endsWithDot path then (some ("RemoveAll " ++ path ++ ": invalid argument"), w.tick)
  else
    let p := resolve env.cwd path
    match env.fault w.clock with
    | some f =>
      (some f.msg,
        { fs := fun q => if p.isPrefixOf q && !f.survives q then none else w.fs q,
          clock := w.clock + 1 })
    | none =>
      (none, { fs := fun q => if p.isPrefixOf q then none else w.fs q, clock := w.clock + 1 })

/-- `os.Rename(oldpath, newpath)`: moves the node at `oldpath`, with everything below it, to
`newpath`, in one step. A target that exists is replaced; whether a target directory is empty
is not looked at (`Sync` renames onto a path it has just removed). -/
def osRename (env : Env) (oldpath newpath : String) (w : World) : Option String × World :=
  let po := resolve env.cwd oldpath
  let pn := resolve env.cwd newpath
  let fail := fun (e : String) =>
    (some ("rename " ++ oldpath ++ " " ++ newpath ++ ": " ++ e), w.tick)
  if oldpath = "" ∨ newpath = "" then fail "no such file or directory"
  else
    match env.fault w.clock with
    | some f => (some f.msg, w.tick)
    | none =>
      if po = [] ∨ pn = [] then fail "device or resource busy"
      else if (w.fs po).isNone then fail "no such file or directory"
      else if po = pn then (none, w.tick)
      else if po.isPrefixOf pn then fail "invalid argument"
      else if pn.isPrefixOf po then fail "directory not empty"
      else if nodeAt w.fs pn.dropLast ≠ some Node.dir then fail "no such file or directory"
      else
        (none,
          { fs := fun q =>
              if pn.isPrefixOf q then w.fs (po ++ q.drop pn.length)
              else if po.isPrefixOf q then none
              else w.fs q,
            clock := w.clock + 1 })

/-- `os.Create(path)`: creates or truncates the file in an existing directory. -/
def osCreate (env : Env) (path : String) (w : World) : Option String × World :=
  let p := resolve env.cwd path
  if path = "" then (some "open : no such file or directory", w.tick)
  else
    match env.fault w.clock with
    | some f => (some f.msg, w.tick)
    | none =>
      if nodeAt w.fs p = some Node.dir then
        (some ("open " ++ path ++ ": is a directory"), w.tick)
      else if nodeAt w.fs p.dropLast ≠ some Node.dir then
        (some ("open " ++ path ++ ": no such file or directory"), w.tick)
      else
        (none, { fs := fun q => if q = p then some (Node.file []) else w.fs q,
                 clock := w.clock + 1 })

/-- `io.Copy(out, resp.Body)` for the file just created at `p`: the body is written to the
file; the call fails when the body stream does, or on a write failure after `progress`
bytes. -/
def ioCopyToFile (env : Env) (p : Path) (resp : HttpResponse) (w : World) :
    Option String × World :=
  match env.fault w.clock with
  | some f =>
    (some f.msg,
      { fs := fun q => if q = p then some (Node.file (resp.Body.take f.progress)) else w.fs q,
        clock := w.clock + 1 })
  | none =>
    (resp.BodyErr,
      { fs := fun q => if q = p then some (Node.file resp.Body) else w.fs q,
        clock := w.clock + 1 })

/-- `os.Stat(path)` followed by `Size()`. -/
def osStatSize (env : Env) (path : String) (w : World) : Except String Int × World :=
  if path = "" then (.error "stat : no such file or directory", w.tick)
  else
    match env.fault w.clock with
    | some f => (.error f.msg, w.tick)
    | none =>
      match nodeAt w.fs (resolve env.cwd path) with
      | none => (.error ("stat " ++ path ++ ": no such file or directory"), w.tick)
      | some Node.dir => (.ok (env.dirSize : Int), w.tick)
      | some (Node.file content) => (.ok (content.length : Int), w.tick)

/-- `os.Open(path)` followed by reading the file to its end, as `io.Copy(hash, f)` does.
The first error is that of `os.Open`, the second that of the read. -/
def osOpen (env : Env) (path : String) (w : World) : Except String Node × World :=
  if path = "" then (.error "open : no such file or directory", w.tick)
  else
    match env.fault w.clock with
    | some f => (.error f.msg, w.tick)
    | none =>
      match nodeAt w.fs (resolve env.cwd path) with
      | none => (.error ("open " ++ path ++ ": no such file or directory"), w.tick)
      | some n => (.ok n, w.tick)

def readAllOpened (env : Env) (path : String) (n : Node) (w : World) :
    Except String Bytes × World :=
  match env.fault w.clock with
  | some f => (.error f.msg, w.tick)
  | none =>
    match n with
    | Node.dir => (.error ("read " ++ path ++ ": is a directory"), w.tick)
    | Node.file content => (.ok content, w.tick)

/-! ## `pkg/vendir/directory/github_release_sync.go` -/

/-- `GithubReleaseSync.downloadRelease`. -/
def GithubReleaseSync.downloadRelease (env : Env) (d : GithubReleaseSync) (w : World) :
    Except String GithubReleaseAPI × World :=
  let url := "https://api.github.com/repos/" ++ d.opts.Slug ++ "/releases/tags/" ++ d.opts.Tag
  match env.httpGet w.clock url with
  | .error err => (.error err, w.tick)
  | .ok resp =>
    if resp.StatusCode ≠ 200 then
      (.error ("Expected response status 200, but was '" ++ toString resp.StatusCode ++ "'"),
        w.tick)
    else
      match resp.BodyErr with
      | some err => (.error err, w.tick)
      | none =>
        match env.jsonUnmarshal resp.Body with
        | .error err => (.error err, w.tick)
        | .ok releaseAPI => (.ok releaseAPI, w.tick)

/-- `GithubReleaseSync.downloadFile`. -/
def GithubReleaseSync.downloadFile (env : Env) (url dstPath : String) (w : World) :
    Option String × World :=
  match env.httpGet w.clock url with
  | .error err => (some err, w.tick)
  | .ok resp =>
    match osCreate env dstPath w.tick with
    | (some err, w1) => (some err, w1)
    | (none, w1) => ioCopyToFile env (resolve env.cwd dstPath) resp w1

/-- `GithubReleaseSync.checkFileSize`. -/
def GithubReleaseSync.checkFileSize (env : Env) (path : String) (expectedSize : Int)
    (w : World) : Option String × World :=
  match osStatSize env path w with
  | (.error err, w1) => (some err, w1)
  | (.ok size, w1) =>
    if size ≠ expectedSize then
      (some ("Expected file size to be " ++ toString expectedSize ++ ", but was " ++
        toString size), w1)
    else (none, w1)

/-- `GithubReleaseSync.checkFileChecksum`. -/
def GithubReleaseSync.checkFileChecksum (env : Env) (path expectedChecksum : String)
    (w : World) : Outcome (Option String) × World :=
  if expectedChecksum.length = 0 then
    (.panic "Expected non-empty checksum as argument", w)
  else
    match osOpen env path w with
    | (.error err, w1) => (.ret (some err), w1)
    | (.ok f, w1) =>
      match readAllOpened env path f w1 with
      | (.error err, w2) => (.ret (some ("Calculating checksum: " ++ err)), w2)
      | (.ok content, w2) =>
        let actualChecksum := hexLower (sha256Sum content)
        if actualChecksum ≠ expectedChecksum then
          (.ret (some ("Expected file checksum to be '" ++ expectedChecksum ++
            "', but was '" ++ actualChecksum ++ "'")), w2)
        else (.ret none, w2)

/-- The errors `Sync` returns, one per `fmt.Errorf` in its body. -/
inductive SyncError where
  | creatingIncomingDir (incomingTmpPath err : String)
  | downloadingReleaseInfo (err : String)
  | findingChecksums (err : String)
  | downloadingAsset (name err : String)
  | checkingSize (name err : String)
  | checkingChecksum (name err : String)
  | deletingDir (dstPath err : String)
  | movingDirectory (incomingTmpPath err : String)
  deriving DecidableEq, Repr

/-- The text of the error. -/
def SyncError.message : SyncError → String
  | .creatingIncomingDir p err => "Creating incoming dir '" ++ p ++ "' for git fetching: " ++ err
  | .downloadingReleaseInfo err => "Downloading release info: " ++ err
  | .findingChecksums err => "Finding checksums in release notes: " ++ err
  | .downloadingAsset name err => "Downloading asset '" ++ name ++ "': " ++ err
  | .checkingSize name err => "Checking asset '" ++ name ++ "' size: " ++ err
  | .checkingChecksum name err => "Checking asset '" ++ name ++ "' checksum: " ++ err
  | .deletingDir p err => "Deleting dir " ++ p ++ ": " ++ err
  | .movingDirectory p err => "Moving directory '" ++ p ++ "' to staging dir: " ++ err

/-- The error comes from a step of `Sync` before `os.RemoveAll(dstPath)`. -/
def SyncError.beforeRemoval : SyncError → Bool
  | .deletingDir _ _ => false
  | .movingDirectory _ _ => false
  | _ => true

/-- The body of the loop over `releaseAPI.Assets` in `Sync`. -/
def GithubReleaseSync.syncAsset (env : Env) (d : GithubReleaseSync)
    (fileChecksums : List (String × String)) (incomingTmpPath : String)
    (asset : GithubReleaseAssetAPI) (w : World) : Outcome (Option SyncError) × World :=
  let path := filepathJoin [incomingTmpPath, asset.Name]
  match GithubReleaseSync.downloadFile env asset.BrowserDownloadURL path w with
  | (some err, w1) => (.ret (some (.downloadingAsset asset.Name err)), w1)
  | (none, w1) =>
    match GithubReleaseSync.checkFileSize env path asset.Size w1 with
    | (some err, w2) => (.ret (some (.checkingSize asset.Name err)), w2)
    | (none, w2) =>
      if !d.opts.DisableChecksumValidation then
        match GithubReleaseSync.checkFileChecksum env path (mapGet fileChecksums asset.Name)
            w2 with
        | (.panic msg, w3) => (.panic msg, w3)
        | (.ret (some err), w3) => (.ret (some (.checkingChecksum asset.Name err)), w3)
        | (.ret none, w3) => (.ret none, w3)
      else (.ret none, w2)

/-- The loop over `releaseAPI.Assets` in `Sync`: it stops at the first asset that fails. -/
def GithubReleaseSync.syncAssets (env : Env) (d : GithubReleaseSync)
    (fileChecksums : List (String × String)) (incomingTmpPath : String) :
    List GithubReleaseAssetAPI → World → Outcome (Option SyncError) × World
  | [], w => (.ret none, w)
  | asset :: rest, w =>
    match GithubReleaseSync.syncAsset env d fileChecksums incomingTmpPath asset w with
    | (.ret none, w1) => GithubReleaseSync.syncAssets env d fileChecksums incomingTmpPath rest w1
    | r => r

/-- The end of `Sync`: `os.RemoveAll(dstPath)`, then `os.Rename(incomingTmpPath, dstPath)`. -/
def GithubReleaseSync.syncPublish (env : Env) (incomingTmpPath dstPath : String) (w : World) :
    Option SyncError × World :=
  match osRemoveAll env dstPath w with
  | (some err, w1) => (some (.deletingDir dstPath err), w1)
  | (none, w1) =>
    match osRename env incomingTmpPath dstPath w1 with
    | (some err, w2) => (some (.movingDirectory incomingTmpPath err), w2)
    | (none, w2) => (none, w2)

/-- The checksum map `Sync` builds: empty when validation is disabled, else what `Find`
returns. -/
def GithubReleaseSync.syncChecksums (env : Env) (d : GithubReleaseSync)
    (releaseAPI : GithubReleaseAPI) : Except String (List (String × String)) :=
  if !d.opts.DisableChecksumValidation then
    env.findChecksums releaseAPI.AssetNames releaseAPI.Body
  else .ok []

/-- The part of `Sync` that runs after `defer os.RemoveAll(incomingTmpPath)` is set up. -/
def GithubReleaseSync.syncBody (env : Env) (d : GithubReleaseSync)
    (incomingTmpPath dstPath : String) (w : World) :
    Outcome (LockConfigContentsGithubRelease × Option SyncError) × World :=
  match GithubReleaseSync.downloadRelease env d w with
  | (.error err, w1) => (.ret ({ URL := "" }, some (.downloadingReleaseInfo err)), w1)
  | (.ok releaseAPI, w1) =>
    let lockConf : LockConfigContentsGithubRelease := { URL := releaseAPI.URL }
    match GithubReleaseSync.syncChecksums env d releaseAPI with
    | .error err => (.ret (lockConf, some (.findingChecksums err)), w1)
    | .ok fileChecksums =>
      match GithubReleaseSync.syncAssets env d fileChecksums incomingTmpPath
          releaseAPI.Assets w1 with
      | (.panic msg, w2) => (.panic msg, w2)
      | (.ret (some err), w2) => (.ret (lockConf, some err), w2)
      | (.ret none, w2) =>
        match GithubReleaseSync.syncPublish env incomingTmpPath dstPath w2 with
        | (err, w3) => (.ret (lockConf, err), w3)

/-- `GithubReleaseSync.Sync(dstPath)`. The deferred `os.RemoveAll(incomingTmpPath)` runs when
the body returns or panics, and its result is dropped. -/
def GithubReleaseSync.Sync (env : Env) (d : GithubReleaseSync) (dstPath : String)
    (w : World) : Outcome (LockConfigContentsGithubRelease × Option SyncError) × World :=
  let incomingTmpPath := filepathJoin [env.incomingTmpDir, "github-release"]
  match osMkdirAll env incomingTmpPath w with
  | (some err, w1) =>
    (.ret ({ URL := "" }, some (.creatingIncomingDir incomingTmpPath err)), w1)
  | (none, w1) =>
    match GithubReleaseSync.syncBody env d incomingTmpPath dstPath w1 with
    | (r, w2) => (r, (osRemoveAll env incomingTmpPath w2).2)

/-! ## `ReleaseNotesChecksums.Find` -/

def isHexChar (c : Char) : Bool :=
  ('0' ≤ c && c ≤ '9') || ('a' ≤ c && c ≤ 'f') || ('A' ≤ c && c ≤ 'F')

/-- White space removed from both ends. -/
def trimSpace (s : List Char) : List Char :=
  ((s.dropWhile isSpace).reverse.dropWhile isSpace).reverse

/-- One leading `./` or `/` removed. -/
def stripPathPrefix : List Char → List Char
  | '.' :: '/' :: rest => rest
  | '/' :: rest => rest
  | s => s

/-- A line of the form `<64-hex-char-digest><whitespace><filename>` gives the digest and the
file name, trimmed and without its leading `./` or `/`; any other line gives nothing. -/
def parseChecksumLine (line : List Char) : Option (String × String) :=
  let digest := line.take 64
  let rest := line.drop 64
  if digest.length = 64 ∧ digest.all isHexChar = true ∧ (rest.head?.any isSpace) = true then
    some (String.mk digest, String.mk (stripPathPrefix (trimSpace rest)))
  else none

/-- The marker line that opens and closes the checksum block. -/
def checksumMarker : List Char := ['+', '+', '+']

/-- Assignment in a Go `map[string]string`: the key has one entry afterwards. -/
def mapSet (m : List (String × String)) (key value : String) : List (String × String) :=
  (key, value) :: m.filter (fun kv => kv.1 ≠ key)

/-- The entry a block line adds to the map: none unless it names a known asset. -/
def addChecksumLine (assetNames : List String) (m : List (String × String))
    (line : List Char) : List (String × String) :=
  match parseChecksumLine line with
  | some (digest, name) => if name ∈ assetNames then mapSet m name digest else m
  | none => m

/-- Modelled from the spec: `ReleaseNotesChecksums.Find`, whose source file is not among the
files at hand (only its test is). Following the description of the checksum extractor: the
block is the run of lines between the first line consisting only of `+++` and the next such
line; each block line of the form `<64-hex-char-digest><whitespace><filename>` whose file
name, with white space trimmed and a leading `./` or `/` stripped, equals a known asset name
gives the entry name ↦ digest; all other lines are ignored. A block that is not closed is a
parse error; a body without a block gives the empty map. -/
def ReleaseNotesChecksums.Find (assetNames : List String) (body : String) :
    Except String (List (String × String)) :=
  match (splitChar '\n' body.data).dropWhile (fun l => l ≠ checksumMarker) with
  | [] => .ok []
  | _ :: afterOpen =>
    if checksumMarker ∈ afterOpen then
      .ok ((afterOpen.takeWhile (fun l => l ≠ checksumMarker)).foldl
        (addChecksumLine assetNames) [])
    else .error "Expected checksum block to be closed"

/-! ## Notions used in the statements and proofs -/

/-- What `filepath.Clean` keeps on its stack: elements that are not empty, not `.`, and hold
no slash. -/
def cleanElems (st : List (List Char)) : Prop :=
  ∀ c ∈ st, c ≠ [] ∧ c ≠ ['.'] ∧ '/' ∉ c

/-- A name that is a single path element: not empty, without a slash, and neither `.` nor
`..`. -/
def plainName (n : String) : Prop :=
  n.data ≠ [] ∧ '/' ∉ n.data ∧ n.data ≠ ['.'] ∧ n.data ≠ ['.', '.']

instance (n : String) : Decidable (plainName n) := by
  unfold plainName; exact inferInstance

/-- The staging directory of a run: `filepath.Join(incomingTmpDir, "github-release")`. -/
def stagingPath (env : Env) : String := filepathJoin [env.incomingTmpDir, "github-release"]

/-- Everything at and below `dir` is the same in both file systems. -/
def sameBelow (dir : Path) (fs fs' : FS) : Prop := ∀ q, dir <+: q → fs' q = fs q

/-- A run of `Sync` stopped before `os.RemoveAll(dstPath)`: it panicked, or returned an error
from an earlier step. -/
def stoppedBeforeRemoval :
    Outcome (LockConfigContentsGithubRelease × Option SyncError) → Bool
  | .panic _ => true
  | .ret (_, some err) => err.beforeRemoval
  | .ret (_, none) => false

/-- The release `Sync` works on: what `downloadRelease` returns once the staging directory
is made. -/
def releaseOf (env : Env) (d : GithubReleaseSync) (w : World) : Except String GithubReleaseAPI :=
  (GithubReleaseSync.downloadRelease env d (osMkdirAll env (stagingPath env) w).2).1

/-- The world in which the asset loop of `Sync` starts. -/
def loopStart (env : Env) (d : GithubReleaseSync) (w : World) : World :=
  (GithubReleaseSync.downloadRelease env d (osMkdirAll env (stagingPath env) w).2).2

/-- The world the asset loop of `Sync` leaves for a release and its checksum map: the staged
snapshot. -/
def staged (env : Env) (d : GithubReleaseSync) (w : World) (release : GithubReleaseAPI)
    (m : List (String × String)) : Outcome (Option SyncError) × World :=
  GithubReleaseSync.syncAssets env d m (stagingPath env) release.Assets (loopStart env d w)

/-- The entries of a checksum map under construction: one per key, each for a known asset and
holding the digest of that asset's line. -/
def checksumsSound (assetNames : List String) (digestOf : String → String)
    (m : List (String × String)) : Prop :=
  (m.map Prod.fst).Nodup ∧ ∀ kv ∈ m, kv.1 ∈ assetNames ∧ kv.2 = digestOf kv.1

/-- One path element counted against the depth below a directory: `..` climbs one level and
is refused at depth zero. -/
def climbStep (depth : Option Nat) (comp : List Char) : Option Nat :=
  match depth with
  | none => none
  | some d =>
    if comp = [] ∨ comp = ['.'] then some d
    else if comp = ['.', '.'] then (if d = 0 then none else some (d - 1))
    else some (d + 1)

/-- A name, read as a relative path, never climbs above the directory it is joined to: each
`..` element has an element before it to remove. -/
def staysBelow (name : String) : Bool :=
  ((splitChar '/' name.data).foldl climbStep (some 0)).isSome

/-! ## A concrete setting

A process in `/work` syncing into `vendor/rel`, which holds one file, with the staging root
`.vendir-tmp/incoming`. -/

/-- The file system before the run. -/
def exampleFS : FS := fun p =>
  if p = ["work"] ∨ p = ["work", "vendor"] ∨ p = ["work", "vendor", "rel"] then some Node.dir
  else if p = ["work", "vendor", "rel", "old.txt"] then some (Node.file [1])
  else none

def exampleWorld : World := { fs := exampleFS, clock := 0 }

/-- The bytes of `Not Found`. -/
def notFoundBody : Bytes := [78, 111, 116, 32, 70, 111, 117, 110, 100]

/-- The answers of the network: three files of one, two and three bytes, a URL that answers
404, and status 200 with an empty body for everything else. -/
def exampleHttpGet (url : String) : Except String HttpResponse :=
  if url = "https://example.org/one" then .ok { StatusCode := 200, Body := [1], BodyErr := none }
  else if url = "https://example.org/two" then
    .ok { StatusCode := 200, Body := [1, 2], BodyErr := none }
  else if url = "https://example.org/three" then
    .ok { StatusCode := 200, Body := [1, 2, 3], BodyErr := none }
  else if url = "https://example.org/missing" then
    .ok { StatusCode := 404, Body := notFoundBody, BodyErr := none }
  else .ok { StatusCode := 200, Body := [], BodyErr := none }

/-- An environment in which the metadata decodes to `release` and the system call at clock
value `faultAt`, if any, fails. -/
def exampleEnv (release : GithubReleaseAPI) (faultAt : Option Nat) : Env :=
  { cwd := ["work"]
    incomingTmpDir := ".vendir-tmp/incoming"
    fault := fun n =>
      if some n = faultAt then
        some { msg := "permission denied", progress := 0, survives := fun _ => true }
      else none
    httpGet := fun _ url => exampleHttpGet url
    jsonUnmarshal := fun _ => .ok release
    findChecksums := ReleaseNotesChecksums.Find
    dirSize := 4096 }

def exampleURL : String := "https://api.github.com/repos/k14s/kapp/releases/1"

/-- A release with one asset of three bytes. -/
def releaseOne : GithubReleaseAPI :=
  { URL := exampleURL, Body := "+++\n+++\n",
    Assets := [{ Name := "a.yml", Size := 3,
                 BrowserDownloadURL := "https://example.org/three" }] }

/-- A release whose asset name climbs out of the staging directory into the destination, and
whose declared size is not the size of what is served. -/
def releaseClimbing : GithubReleaseAPI :=
  { URL := exampleURL, Body := "",
    Assets := [{ Name := "../../../vendor/rel/old.txt", Size := 5,
                 BrowserDownloadURL := "https://example.org/two" }] }

/-- A release with two distinct asset names that name the same file. -/
def releaseAliased : GithubReleaseAPI :=
  { URL := exampleURL, Body := "",
    Assets := [{ Name := "a.yml", Size := 1, BrowserDownloadURL := "https://example.org/one" },
               { Name := "./a.yml", Size := 2,
                 BrowserDownloadURL := "https://example.org/two" }] }

/-- A release whose asset name leaves the staging directory. -/
def releaseEscaping : GithubReleaseAPI :=
  { URL := exampleURL, Body := "",
    Assets := [{ Name := "../evil.yml", Size := 3,
                 BrowserDownloadURL := "https://example.org/three" }] }

/-- A release whose asset URL answers 404, the declared size being that of the error page. -/
def releaseMissing : GithubReleaseAPI :=
  { URL := exampleURL, Body := "",
    Assets := [{ Name := "a.yml", Size := 9,
                 BrowserDownloadURL := "https://example.org/missing" }] }

def syncChecked : GithubReleaseSync :=
  { opts := { Slug := "k14s/kapp", Tag := "v0.1.0", DisableChecksumValidation := false } }

def syncUnchecked : GithubReleaseSync :=
  { opts := { Slug := "k14s/kapp", Tag := "v0.1.0", DisableChecksumValidation := true } }

/-- The SHA-256 digest of the empty file, in upper-case hex. -/
def emptyDigestUpper : String :=
  "E3B0C44298FC1C149AFBF4C8996FB92427AE41E4649B934CA495991B7852B855"

/-- A file system with an empty file `/work/f`. -/
def emptyFileFS : FS := fun p =>
  if p = ["work"] then some Node.dir
  else if p = ["work", "f"] then some (Node.file [])
  else none

/-- A release of two assets whose notes hold the checksum of the first only. -/
def releaseHalfChecked : GithubReleaseAPI :=
  { URL := exampleURL,
    Body := "+++\n039058c6f2c0cb492c533b0a4d14ef77cc0f78abccced5287d84a1a2011cfb81  a.yml\n+++\n",
    Assets := [{ Name := "a.yml", Size := 3,
                 BrowserDownloadURL := "https://example.org/three" },
               { Name := "b.yml", Size := 2,
                 BrowserDownloadURL := "https://example.org/two" }] }

/-- A release whose asset is declared with five bytes while two are served. -/
def releaseShort : GithubReleaseAPI :=
  { URL := exampleURL, Body := "",
    Assets := [{ Name := "a.yml", Size := 5,
                 BrowserDownloadURL := "https://example.org/two" }] }

/-- The release notes of `TestReleaseNotesChecksums`. -/
def testBody : String :=
  "\n- Initial release\n  - some content inside release.yml\n\n+++\n" ++
  "26bf09c42d72ae448af3d1ee9f6a933c87c4ec81d04d37b30e1b6a339f5983a1  release.yml\n" ++
  "26bf09c42d72ae448af3d1ee9f6a933c87c4ec81d04d37b30e1b6a339f5983a2  /with-slash.yml\n" ++
  "26bf09c42d72ae448af3d1ee9f6a933c87c4ec81d04d37b30e1b6a339f5983a3  ./with-period-slash.yml\n" ++
  "26bf09c42d72ae448af3d1ee9f6a933c87c4ec81d04d37b30e1b6a339f5983a4  with-space-after-file.yml   \n" ++
  "+++\n"

/-- The asset names of `TestReleaseNotesChecksums`. -/
def testAssetNames : List String :=
  ["release.yml", "with-slash.yml", "with-period-slash.yml", "with-space-after-file.yml"]

/-- The map `TestReleaseNotesChecksums` expects. -/
def testDigestOf (name : String) : String :=
  if name = "release.yml" then
    "26bf09c42d72ae448af3d1ee9f6a933c87c4ec81d04d37b30e1b6a339f5983a1"
  else if name = "with-slash.yml" then
    "26bf09c42d72ae448af3d1ee9f6a933c87c4ec81d04d37b30e1b6a339f5983a2"
  else if name = "with-period-slash.yml" then
    "26bf09c42d72ae448af3d1ee9f6a933c87c4ec81d04d37b30e1b6a339f5983a3"
  else if name = "with-space-after-file.yml" then
    "26bf09c42d72ae448af3d1ee9f6a933c87c4ec81d04d37b30e1b6a339f5983a4"
  else ""

/-- The lines of `testBody` before the block, in it, and after it. -/
def testPre : List (List Char) :=
  ["".data, "- Initial release".data, "  - some content inside release.yml".data, "".data]

def testBlock : List (List Char) :=
  ["26bf09c42d72ae448af3d1ee9f6a933c87c4ec81d04d37b30e1b6a339f5983a1  release.yml".data,
   "26bf09c42d72ae448af3d1ee9f6a933c87c4ec81d04d37b30e1b6a339f5983a2  /with-slash.yml".data,
   "26bf09c42d72ae448af3d1ee9f6a933c87c4ec81d04d37b30e1b6a339f5983a3  ./with-period-slash.yml".data,
   "26bf09c42d72ae448af3d1ee9f6a933c87c4ec81d04d37b30e1b6a339f5983a4  with-space-after-file.yml   ".data]

def testPost : List (List Char) := ["".data]

/-! # Theorems -/

/-! ## `sort-semver`: the version list and the prerelease configuration -/


theorem foldl_append_fields (vs : List String) (acc : List String) :
    vs.foldl (fun vers ver => vers ++ Fields ver) acc = acc ++ (vs.map Fields).flatten := by
  induction vs generalizing acc with
  | nil => simp
  | cons v rest ih => simp [ih, List.append_assoc]

theorem versions_eq_join (o : SortSemverOptions) :
    o.versions = (o.Versions.map Fields).flatten := by
  simp [SortSemverOptions.versions, foldl_append_fields]

/-- Every field the loop yields is the pending field or a later one; none is empty and none
holds a white space character, provided the pending field holds none. -/
theorem fieldsLoop_mem (cs cur : List Char) (hcur : ∀ c ∈ cur, isSpace c = false)
    (f : List Char) (hf : f ∈ fieldsLoop cur cs) : f ≠ [] ∧ ∀ c ∈ f, isSpace c = false := by
  induction cs generalizing cur with
  | nil =>
    unfold fieldsLoop at hf
    split at hf
    · simp at hf
    · rename_i hne
      simp at hf
      subst hf
      exact ⟨by simpa using hne, by simpa using hcur⟩
  | cons c cs ih =>
    unfold fieldsLoop at hf
    split at hf
    · split at hf
      · exact ih [] (by simp) hf
      · rename_i hne
        rcases List.mem_cons.1 hf with h | h
        · subst h
          exact ⟨by simpa using hne, by simpa using hcur⟩
        · exact ih [] (by simp) h
    · rename_i hc
      refine ih (c :: cur) ?_ hf
      intro x hx
      rcases List.mem_cons.1 hx with h | h
      · subst h; simpa using hc
      · exact hcur x h

/-- White space alone closes the pending field and opens none. -/
theorem fieldsLoop_spaces (ws cur : List Char) (hws : ∀ c ∈ ws, isSpace c = true) :
    fieldsLoop cur ws = if cur = [] then [] else [cur.reverse] := by
  induction ws generalizing cur with
  | nil => simp [fieldsLoop]
  | cons c cs ih =>
    have hc : isSpace c = true := hws c (by simp)
    have hcs : ∀ x ∈ cs, isSpace x = true := fun x hx => hws x (by simp [hx])
    unfold fieldsLoop
    simp only [hc, if_true]
    split
    · rename_i h; simp [ih [] hcs, h]
    · rename_i h; simp [ih [] hcs, h]

/-- Leading white space is skipped when no field is pending. -/
theorem fieldsLoop_skip (ws rest : List Char) (hws : ∀ c ∈ ws, isSpace c = true) :
    fieldsLoop [] (ws ++ rest) = fieldsLoop [] rest := by
  induction ws with
  | nil => simp
  | cons c cs ih =>
    have hc : isSpace c = true := hws c (by simp)
    have hcs : ∀ x ∈ cs, isSpace x = true := fun x hx => hws x (by simp [hx])
    simp only [List.cons_append]
    rw [fieldsLoop]
    simp [hc, ih hcs]

/-- Characters that are not white space are collected into the pending field. -/
theorem fieldsLoop_token (tok rest cur : List Char) (htok : ∀ c ∈ tok, isSpace c = false) :
    fieldsLoop cur (tok ++ rest) = fieldsLoop (tok.reverse ++ cur) rest := by
  induction tok generalizing cur with
  | nil => simp
  | cons c cs ih =>
    have hc : isSpace c = false := htok c (by simp)
    have hcs : ∀ x ∈ cs, isSpace x = false := fun x hx => htok x (by simp [hx])
    simp only [List.cons_append]
    rw [fieldsLoop]
    simp [hc, ih _ hcs]

/-- A pending field is closed by the end of the input or by a white space character. -/
theorem fieldsLoop_close (cur rest : List Char) (hcur : cur ≠ [])
    (hrest : rest = [] ∨ ∃ c tl, rest = c :: tl ∧ isSpace c = true) :
    fieldsLoop cur rest = cur.reverse :: fieldsLoop [] rest := by
  rcases hrest with h | ⟨c, tl, h, hc⟩
  · subst h; simp [fieldsLoop, hcur]
  · subst h
    rw [fieldsLoop]
    simp only [hc, if_true, hcur, if_false]
    congr 1
    rw [fieldsLoop]
    simp [hc]

/-- **C9.** `SortSemverOptions.versions` returns the concatenation, in input order, of the
white-space-separated fields of each input string, and nothing is dropped from it, so
duplicates stay. No entry is empty or holds a white space character. An input that is empty
or all white space contributes no entry. Every white-space-delimited token is an entry of its
own: an input made of white space, then a token, then a rest that is empty or starts with
white space, yields that token followed by the fields of the rest. -/
theorem versions_fields (o : SortSemverOptions) :
    o.versions = (o.Versions.map Fields).flatten ∧
    (o.versions.length = (o.Versions.map (fun v => (Fields v).length)).sum) ∧
    (∀ e ∈ o.versions, e ≠ "" ∧ ∀ c ∈ e.data, isSpace c = false) ∧
    (∀ v : String, (∀ c ∈ v.data, isSpace c = true) → Fields v = []) ∧
    (∀ ws tok rest : String,
      (∀ c ∈ ws.data, isSpace c = true) → tok ≠ "" → (∀ c ∈ tok.data, isSpace c = false) →
      (rest = "" ∨ ∃ c, rest.data.head? = some c ∧ isSpace c = true) →
      Fields (ws ++ tok ++ rest) = tok :: Fields rest) := by
  refine ⟨versions_eq_join o, ?_, ?_, ?_, ?_⟩
  · rw [versions_eq_join]
    simp [List.length_flatten, Function.comp_def]
  · intro e he
    rw [versions_eq_join] at he
    simp only [List.mem_flatten, List.mem_map] at he
    obtain ⟨l, ⟨v, _, rfl⟩, hel⟩ := he
    simp only [Fields, List.mem_map] at hel
    obtain ⟨f, hf, rfl⟩ := hel
    have := fieldsLoop_mem v.data [] (by simp) f hf
    refine ⟨?_, this.2⟩
    intro h
    apply this.1
    have := congrArg String.data h
    simpa using this
  · intro v hv
    simp [Fields, fieldsLoop_spaces v.data [] hv]
  · intro ws tok rest hws htokne htok hrest
    have hne : tok.data ≠ [] := by
      intro h
      apply htokne
      exact String.ext (by simpa using h)
    have hrest' : rest.data = [] ∨ ∃ c tl, rest.data = c :: tl ∧ isSpace c = true := by
      rcases hrest with h | ⟨c, hc, hs⟩
      · left; simp [h]
      · right
        cases hr : rest.data with
        | nil => simp [hr] at hc
        | cons x tl =>
          simp [hr] at hc
          subst hc
          exact ⟨x, tl, rfl, hs⟩
    simp only [Fields, String.data_append, List.append_assoc]
    rw [fieldsLoop_skip _ _ hws, fieldsLoop_token _ _ _ htok, List.append_nil,
      fieldsLoop_close _ _ (by simpa using hne) hrest']
    simp

/-- **C10.** `prereleaseConf` yields exactly one of three configurations: nil exactly when
`Prerelease` is false and no identifier is given; a configuration with an empty identifier
list exactly when `Prerelease` is true and no identifier is given; and whenever an identifier
is given, a configuration whose identifier list is `PrereleaseIdentifiers`, whatever the value
of `Prerelease`. -/
theorem prereleaseConf_three_cases (o : SortSemverOptions) :
    (o.prereleaseConf = none ↔ (o.Prerelease = false ∧ o.PrereleaseIdentifiers = [])) ∧
    (o.prereleaseConf = some { Identifiers := [] } ↔
      (o.Prerelease = true ∧ o.PrereleaseIdentifiers = [])) ∧
    (o.PrereleaseIdentifiers ≠ [] →
      o.prereleaseConf = some { Identifiers := o.PrereleaseIdentifiers }) ∧
    (∀ c, o.prereleaseConf = some c → c.Identifiers = o.PrereleaseIdentifiers) := by
  obtain ⟨cs, vs, p, ids⟩ := o
  cases p <;> cases ids <;> simp [SortSemverOptions.prereleaseConf]

/-! ## Paths: `filepath.Join` against path resolution -/

theorem splitChar_ne_nil (sep : Char) (s : List Char) : splitChar sep s ≠ [] := by
  cases s with
  | nil => simp [splitChar]
  | cons c cs =>
    unfold splitChar
    split <;> simp

theorem splitChar_append_sep (sep : Char) (a b : List Char) :
    splitChar sep (a ++ sep :: b) = splitChar sep a ++ splitChar sep b := by
  induction a with
  | nil => simp [splitChar]
  | cons c cs ih =>
    simp only [List.cons_append]
    by_cases hc : c = sep
    · subst hc
      simp [splitChar, ih]
    · rw [splitChar, if_neg hc, ih]
      conv => rhs; rw [splitChar, if_neg hc]
      cases h : splitChar sep cs with
      | nil => exact absurd h (splitChar_ne_nil sep cs)
      | cons x xs => simp

theorem splitChar_of_not_mem (sep : Char) (n : List Char) (h : sep ∉ n) :
    splitChar sep n = [n] := by
  induction n with
  | nil => simp [splitChar]
  | cons c cs ih =>
    have hc : c ≠ sep := fun e => h (by simp [e])
    have hcs : sep ∉ cs := fun e => h (by simp [e])
    rw [splitChar, if_neg hc, ih hcs]
    simp

theorem not_mem_of_mem_splitChar (sep : Char) (s c : List Char) (hc : c ∈ splitChar sep s) :
    sep ∉ c := by
  induction s generalizing c with
  | nil =>
    simp [splitChar] at hc
    subst hc
    simp
  | cons x xs ih =>
    by_cases hx : x = sep
    · subst hx
      rw [splitChar, if_pos rfl] at hc
      rcases List.mem_cons.1 hc with h | h
      · subst h; simp
      · exact ih c h
    · rw [splitChar, if_neg hx] at hc
      cases hs : splitChar sep xs with
      | nil => exact absurd hs (splitChar_ne_nil sep xs)
      | cons y ys =>
        rw [hs] at hc ih
        simp only [List.headD_cons, List.tail_cons] at hc
        rcases List.mem_cons.1 hc with h | h
        · subst h
          have hy := ih y (by simp)
          intro hmem
          rcases List.mem_cons.1 hmem with e | e
          · exact hx e.symm
          · exact hy e
        · exact ih c (by simp [h])

theorem splitChar_joinChar (sep : Char) (comps : List (List Char)) (hne : comps ≠ [])
    (h : ∀ c ∈ comps, sep ∉ c) : splitChar sep (joinChar sep comps) = comps := by
  induction comps with
  | nil => exact absurd rfl hne
  | cons x rest ih =>
    cases rest with
    | nil => simpa [joinChar] using splitChar_of_not_mem sep x (h x (by simp))
    | cons y ys =>
      rw [joinChar, splitChar_append_sep, splitChar_of_not_mem sep x (h x (by simp)),
        ih (by simp) (fun c hc => h c (by simp [hc]))]
      simp

theorem cleanStep_elems (rooted : Bool) (st : List (List Char)) (c : List Char)
    (hst : cleanElems st) (hc : '/' ∉ c) : cleanElems (cleanStep rooted st c) := by
  unfold cleanStep
  split
  · exact hst
  · rename_i h1
    push_neg at h1
    split
    · rename_i h2
      cases st with
      | nil =>
        simp only
        split
        · exact hst
        · intro x hx
          simp at hx
          subst hx
          exact ⟨h1.1, h1.2, hc⟩
      | cons top rest =>
        simp only
        split
        · intro x hx
          rcases List.mem_cons.1 hx with e | e
          · subst e; exact ⟨h1.1, h1.2, hc⟩
          · exact hst x e
        · intro x hx
          exact hst x (by simp [hx])
    · intro x hx
      rcases List.mem_cons.1 hx with e | e
      · subst e; exact ⟨h1.1, h1.2, hc⟩
      · exact hst x e

theorem foldl_cleanStep_elems (rooted : Bool) (comps st : List (List Char))
    (hst : cleanElems st) (hc : ∀ c ∈ comps, '/' ∉ c) :
    cleanElems (comps.foldl (cleanStep rooted) st) := by
  induction comps generalizing st with
  | nil => simpa using hst
  | cons c cs ih =>
    simp only [List.foldl_cons]
    exact ih _ (cleanStep_elems rooted st c hst (hc c (by simp)))
      (fun x hx => hc x (by simp [hx]))

/-- One element has the same effect on the resolved path whether it is followed directly or
first applied to the stack of `filepath.Clean`. -/
theorem resolveStep_cleanStep (rooted : Bool) (start st : List (List Char)) (c : List Char)
    (hst : cleanElems st) (hroot : rooted = true → start = []) :
    resolveStep (st.reverse.foldl resolveStep start) c =
      (cleanStep rooted st c).reverse.foldl resolveStep start := by
  unfold cleanStep
  by_cases h1 : c = [] ∨ c = ['.']
  · simp [resolveStep, h1]
  · rw [if_neg h1]
    by_cases h2 : c = ['.', '.']
    · rw [if_pos h2]
      cases st with
      | nil =>
        cases rooted with
        | true => simp [hroot rfl, resolveStep, h2]
        | false => simp [h2]
      | cons top rest =>
        simp only
        by_cases h3 : top = ['.', '.']
        · rw [if_pos h3]
          simp [List.foldl_append, h2]
        · rw [if_neg h3]
          have htop := hst top (by simp)
          simp only [List.reverse_cons, List.foldl_append, List.foldl_cons, List.foldl_nil]
          have e1 : resolveStep (rest.reverse.foldl resolveStep start) top =
              rest.reverse.foldl resolveStep start ++ [top] := by
            simp [resolveStep, htop.1, htop.2.1, h3]
          rw [e1, h2]
          simp [resolveStep]
    · rw [if_neg h2]
      simp [List.foldl_append]

theorem foldl_resolveStep_clean (rooted : Bool) (comps start st : List (List Char))
    (hst : cleanElems st) (hc : ∀ c ∈ comps, '/' ∉ c) (hroot : rooted = true → start = []) :
    comps.foldl resolveStep (st.reverse.foldl resolveStep start) =
      (comps.foldl (cleanStep rooted) st).reverse.foldl resolveStep start := by
  induction comps generalizing st with
  | nil => simp
  | cons c cs ih =>
    simp only [List.foldl_cons]
    rw [resolveStep_cleanStep rooted start st c hst hroot]
    exact ih _ (cleanStep_elems rooted st c hst (hc c (by simp)))
      (fun x hx => hc x (by simp [hx]))

theorem joinChar_head_ne_slash (comps : List (List Char)) (h : cleanElems comps) :
    (joinChar '/' comps).head? ≠ some '/' := by
  cases comps with
  | nil => simp [joinChar]
  | cons x rest =>
    have hx := h x (by simp)
    cases x with
    | nil => exact absurd rfl hx.1
    | cons c cs =>
      have hc : c ≠ '/' := fun e => hx.2.2 (by simp [e])
      cases rest with
      | nil => simpa [joinChar] using hc
      | cons y ys => simpa [joinChar] using hc

theorem joinChar_eq_nil (comps : List (List Char)) (h : cleanElems comps)
    (hj : joinChar '/' comps = []) : comps = [] := by
  cases comps with
  | nil => rfl
  | cons x rest =>
    have hx := h x (by simp)
    cases rest with
    | nil => simp [joinChar] at hj; exact absurd hj hx.1
    | cons y ys => simp [joinChar] at hj

theorem cleanElems_reverse (st : List (List Char)) (h : cleanElems st) :
    cleanElems st.reverse := fun c hc => h c (List.mem_reverse.1 hc)

/-- The path `filepath.Clean` returns resolves to the same place as its argument. -/
theorem resolve_cleanChars (start : List (List Char)) (x : List Char)
    (hroot : x.head? = some '/' → start = []) :
    (splitChar '/' (cleanChars x)).foldl resolveStep start =
        (splitChar '/' x).foldl resolveStep start ∧
      ((cleanChars x).head? = some '/' ↔ x.head? = some '/') := by
  have hcomps : ∀ c ∈ splitChar '/' x, '/' ∉ c := fun c hc => not_mem_of_mem_splitChar '/' x c hc
  have hnil : cleanElems [] := fun c hc => by simp at hc
  by_cases hr : x.head? = some '/'
  · have hst := foldl_cleanStep_elems true (splitChar '/' x) [] hnil hcomps
    have key := foldl_resolveStep_clean true (splitChar '/' x) start [] hnil hcomps
      (fun _ => hroot hr)
    simp only [List.reverse_nil, List.foldl_nil] at key
    have hrev := cleanElems_reverse _ hst
    unfold cleanChars
    simp only [hr, decide_True, if_true]
    simp only [List.singleton_append, List.cons_ne_nil, if_false, List.head?_cons, and_true]
    have e0 : splitChar '/' ('/' :: joinChar '/' (List.foldl (cleanStep true) [] (splitChar '/' x)).reverse)
        = [] :: splitChar '/' (joinChar '/' (List.foldl (cleanStep true) [] (splitChar '/' x)).reverse) := by
      rw [splitChar, if_pos rfl]
    rw [e0, key]
    by_cases hempty : (List.foldl (cleanStep true) [] (splitChar '/' x)).reverse = []
    · rw [hempty]
      simp [joinChar, splitChar, resolveStep]
    · rw [splitChar_joinChar '/' _ hempty (fun c hc => (hrev c hc).2.2)]
      simp [resolveStep]
  · have hst := foldl_cleanStep_elems false (splitChar '/' x) [] hnil hcomps
    have key := foldl_resolveStep_clean false (splitChar '/' x) start [] hnil hcomps
      (fun h => by simp at h)
    simp only [List.reverse_nil, List.foldl_nil] at key
    have hrev := cleanElems_reverse _ hst
    unfold cleanChars
    simp only [hr, decide_False, if_false, List.nil_append, Bool.false_eq_true]
    rw [key]
    by_cases hempty : (List.foldl (cleanStep false) [] (splitChar '/' x)).reverse = []
    · rw [hempty]
      simp [joinChar, splitChar, resolveStep]
    · have hj : joinChar '/' (List.foldl (cleanStep false) [] (splitChar '/' x)).reverse ≠ [] :=
        fun e => hempty (joinChar_eq_nil _ hrev e)
      rw [if_neg hj, splitChar_joinChar '/' _ hempty (fun c hc => (hrev c hc).2.2)]
      simp [joinChar_head_ne_slash _ hrev]

theorem resolve_mk_cleanChars (cwd : Path) (x : List Char) :
    resolve cwd (String.mk (cleanChars x)) = resolve cwd (String.mk x) := by
  unfold resolve
  by_cases hr : x.head? = some '/'
  · have h := resolve_cleanChars [] x (fun _ => rfl)
    simp only [h.2.2 hr, hr, if_true, h.1]
  · have h := resolve_cleanChars (cwd.map String.data) x (fun e => absurd e hr)
    have hr' : ¬ (cleanChars x).head? = some '/' := fun e => hr (h.2.1 e)
    simp only [hr, hr', if_false, h.1]

theorem plainName_chars (n : String) (h : plainName n) :
    splitChar '/' n.data = [n.data] ∧ ∀ dir, resolveStep dir n.data = dir ++ [n.data] := by
  refine ⟨splitChar_of_not_mem '/' _ h.2.1, fun dir => ?_⟩
  simp [resolveStep, h.1, h.2.2.1, h.2.2.2]

/-- Joining a plain name to a directory names the entry of that name in the directory. -/
theorem resolve_filepathJoin (cwd : Path) (a n : String) (hn : plainName n) :
    resolve cwd (filepathJoin [a, n]) = resolve cwd a ++ [n] := by
  have hne : n ≠ "" := by
    intro e; subst e; exact hn.1 rfl
  obtain ⟨hs, hstep⟩ := plainName_chars n hn
  by_cases ha : a = ""
  · subst ha
    have e : filepathJoin ["", n] = String.mk (cleanChars n.data) := by
      simp [filepathJoin, List.dropWhile, hne, joinChar]
    rw [e, resolve_mk_cleanChars]
    have hh : n.data.head? ≠ some '/' := by
      intro e2
      cases hd : n.data with
      | nil => simp [hd] at e2
      | cons c cs =>
        simp [hd] at e2
        exact hn.2.1 (by simp [hd, e2])
    have hempty : resolve cwd "" = cwd := by
      simp [resolve, splitChar, resolveStep, Function.comp_def]
    rw [hempty]
    simp only [resolve, hh, if_false, hs, List.foldl_cons, List.foldl_nil, hstep,
      List.map_append, List.map_map, List.map_cons, List.map_nil]
    simp [Function.comp_def]
  · have e : filepathJoin [a, n] = String.mk (cleanChars (a.data ++ '/' :: n.data)) := by
      simp [filepathJoin, List.dropWhile, ha, joinChar]
    have hd : a.data ≠ [] := fun e2 => ha (String.ext (by simpa using e2))
    have hhead : (a.data ++ '/' :: n.data).head? = a.data.head? := by
      cases h : a.data with
      | nil => exact absurd h hd
      | cons c cs => simp
    rw [e, resolve_mk_cleanChars]
    simp only [resolve, hhead, splitChar_append_sep, hs, List.foldl_append, List.foldl_cons,
      List.foldl_nil, hstep, List.map_append, List.map_cons, List.map_nil]

theorem plainName_github_release : plainName "github-release" := by decide

theorem resolve_stagingPath (env : Env) :
    resolve env.cwd (stagingPath env) = resolve env.cwd env.incomingTmpDir ++ ["github-release"] :=
  resolve_filepathJoin env.cwd env.incomingTmpDir "github-release" plainName_github_release

/-! ## What each system call changes -/

theorem osMkdirAll_fs (env : Env) (path : String) (w : World) (q : Path)
    (hq : ¬ q <+: resolve env.cwd path) : (osMkdirAll env path w).2.fs q = w.fs q := by
  have hp : q.isPrefixOf (resolve env.cwd path) = false := by
    rw [Bool.eq_false_iff]
    intro h
    exact hq (List.isPrefixOf_iff_prefix.1 h)
  unfold osMkdirAll
  simp only
  split
  · rfl
  · split <;> simp [mkdirUpTo, hp]

theorem osMkdirAll_ok (env : Env) (path : String) (w : World)
    (h : (osMkdirAll env path w).1 = none) :
    nodeAt (osMkdirAll env path w).2.fs (resolve env.cwd path) = some Node.dir := by
  unfold osMkdirAll at h ⊢
  simp only at h ⊢
  split at h
  · simp at h
  · rename_i hblocked
    split at h
    · simp at h
    · rename_i hf
      simp only [hblocked, hf, if_false, Bool.false_eq_true]
      by_cases hp : resolve env.cwd path = []
      · simp [nodeAt, hp]
      · have hnf : isFileNode (nodeAt w.fs (resolve env.cwd path)) = false := by
          rw [Bool.eq_false_iff]
          intro hfile
          apply hblocked
          rw [List.any_eq_true]
          exact ⟨_, by simp, hfile⟩
        simp only [nodeAt, hp, if_false] at hnf ⊢
        simp only [mkdirUpTo, List.isPrefixOf_iff_prefix.2 (List.prefix_refl _), Bool.true_and]
        cases hfs : w.fs (resolve env.cwd path) with
        | none => simp [hp]
        | some n =>
          cases n with
          | dir => simp
          | file c => simp [hfs, isFileNode] at hnf

theorem osRemoveAll_fs (env : Env) (path : String) (w : World) (q : Path)
    (hq : ¬ resolve env.cwd path <+: q) : (osRemoveAll env path w).2.fs q = w.fs q := by
  have hp : (resolve env.cwd path).isPrefixOf q = false := by
    rw [Bool.eq_false_iff]
    intro h
    exact hq (List.isPrefixOf_iff_prefix.1 h)
  unfold osRemoveAll
  split
  · rfl
  · split
    · rfl
    · simp only
      split <;> simp [hp]

theorem osRemoveAll_shrinks (env : Env) (path : String) (w : World) (q : Path) :
    (osRemoveAll env path w).2.fs q = w.fs q ∨ (osRemoveAll env path w).2.fs q = none := by
  unfold osRemoveAll
  split
  · left; rfl
  · split
    · left; rfl
    · simp only
      split
      · simp only
        split
        · right; rfl
        · left; rfl
      · simp only
        split
        · right; rfl
        · left; rfl

theorem osRemoveAll_ok (env : Env) (path : String) (w : World) (hne : path ≠ "")
    (h : (osRemoveAll env path w).1 = none) (q : Path) (hq : resolve env.cwd path <+: q) :
    (osRemoveAll env path w).2.fs q = none := by
  have hp : (resolve env.cwd path).isPrefixOf q = true := List.isPrefixOf_iff_prefix.2 hq
  unfold osRemoveAll at h ⊢
  rw [if_neg hne] at h ⊢
  split at h
  · simp at h
  · rename_i hdot
    simp only at h ⊢
    split at h
    · simp at h
    · rename_i hf
      simp [hdot, hf, hp, List.isPrefixOf_iff_prefix.1 hp]

theorem osRename_err (env : Env) (o n : String) (w : World)
    (h : (osRename env o n w).1 ≠ none) : (osRename env o n w).2.fs = w.fs := by
  unfold osRename at h ⊢
  simp only at h ⊢
  repeat' split
  all_goals first
    | rfl
    | (exfalso; revert h; simp_all)

/-- A rename that succeeds either names the same existing entry twice, or moves the tree at
the old path to the new one, whose parent stays what it was. -/
theorem osRename_ok (env : Env) (o n : String) (w : World)
    (h : (osRename env o n w).1 = none) :
    n ≠ "" ∧ (w.fs (resolve env.cwd o)).isSome ∧
    ((resolve env.cwd o = resolve env.cwd n ∧ (osRename env o n w).2.fs = w.fs) ∨
      (¬ resolve env.cwd o <+: resolve env.cwd n ∧ ¬ resolve env.cwd n <+: resolve env.cwd o ∧
        ∀ q, (osRename env o n w).2.fs q =
          if resolve env.cwd n <+: q then
            w.fs (resolve env.cwd o ++ q.drop (resolve env.cwd n).length)
          else if resolve env.cwd o <+: q then none else w.fs q)) := by
  unfold osRename at h ⊢
  simp only at h ⊢
  split at h
  · simp at h
  · rename_i h1
    push_neg at h1
    split at h
    · simp at h
    · rename_i hf
      split at h
      · simp at h
      · rename_i h2
        split at h
        · simp at h
        · rename_i h3
          split at h
          · rename_i h4
            refine ⟨h1.2, ?_, Or.inl ⟨h4, ?_⟩⟩
            · cases hfs : w.fs (resolve env.cwd o) <;> simp [hfs] at h3 ⊢
            · repeat' split
              all_goals rfl
          · rename_i h4
            split at h
            · simp at h
            · rename_i h5
              split at h
              · simp at h
              · rename_i h6
                split at h
                · simp at h
                · rename_i h7
                  refine ⟨h1.2, ?_, Or.inr ⟨?_, ?_, ?_⟩⟩
                  · cases hfs : w.fs (resolve env.cwd o) <;> simp [hfs] at h3 ⊢
                  · intro hp; exact h5 (List.isPrefixOf_iff_prefix.2 hp)
                  · intro hp; exact h6 (List.isPrefixOf_iff_prefix.2 hp)
                  · intro q
                    simp only [h1, hf, h2, h3, h4, h5, h6, h7, if_false, false_or,
                      List.isPrefixOf_iff_prefix]
                    simp

theorem osCreate_fs (env : Env) (path : String) (w : World) (q : Path)
    (hq : q ≠ resolve env.cwd path) : (osCreate env path w).2.fs q = w.fs q := by
  unfold osCreate
  simp only
  repeat' split
  all_goals first
    | rfl
    | simp [hq]

theorem ioCopyToFile_fs (env : Env) (p : Path) (resp : HttpResponse) (w : World) (q : Path)
    (hq : q ≠ p) : (ioCopyToFile env p resp w).2.fs q = w.fs q := by
  unfold ioCopyToFile
  split <;> simp [hq]

/-- A copy that reports no error has written the whole body. -/
theorem ioCopyToFile_ok (env : Env) (p : Path) (resp : HttpResponse) (w : World)
    (h : (ioCopyToFile env p resp w).1 = none) :
    (ioCopyToFile env p resp w).2.fs p = some (Node.file resp.Body) := by
  unfold ioCopyToFile at h ⊢
  split
  · rename_i hf
    simp [hf] at h
  · simp

theorem downloadFile_fs (env : Env) (url path : String) (w : World) (q : Path)
    (hq : q ≠ resolve env.cwd path) :
    (GithubReleaseSync.downloadFile env url path w).2.fs q = w.fs q := by
  unfold GithubReleaseSync.downloadFile
  split
  · rfl
  · split
    · rename_i hc
      have := osCreate_fs env path w.tick q hq
      rw [hc] at this
      exact this
    · rename_i hc
      rw [ioCopyToFile_fs _ _ _ _ _ hq]
      have := osCreate_fs env path w.tick q hq
      rw [hc] at this
      exact this

/-- A download that reports no error leaves a file at the path, holding the whole body of
some response. -/
theorem downloadFile_ok (env : Env) (url path : String) (w : World)
    (h : (GithubReleaseSync.downloadFile env url path w).1 = none) :
    ∃ resp, env.httpGet w.clock url = .ok resp ∧ resp.BodyErr = none ∧
      (GithubReleaseSync.downloadFile env url path w).2.fs (resolve env.cwd path) =
        some (Node.file resp.Body) := by
  unfold GithubReleaseSync.downloadFile at h ⊢
  cases hget : env.httpGet w.clock url with
  | error e => simp [hget] at h
  | ok resp =>
    simp only [hget] at h ⊢
    cases hc : osCreate env path w.tick with
    | mk r w1 =>
      simp only [hc] at h ⊢
      cases r with
      | some e => simp at h
      | none =>
        simp only at h ⊢
        refine ⟨resp, rfl, ?_, ioCopyToFile_ok _ _ _ _ h⟩
        unfold ioCopyToFile at h
        split at h
        · simp at h
        · simpa using h

theorem osStatSize_fs (env : Env) (path : String) (w : World) :
    (osStatSize env path w).2.fs = w.fs := by
  unfold osStatSize
  repeat' split
  all_goals rfl

theorem checkFileSize_fs (env : Env) (path : String) (expectedSize : Int) (w : World) :
    (GithubReleaseSync.checkFileSize env path expectedSize w).2.fs = w.fs := by
  unfold GithubReleaseSync.checkFileSize
  split
  · rename_i h
    have := osStatSize_fs env path w
    rw [h] at this
    exact this
  · rename_i h
    have := osStatSize_fs env path w
    rw [h] at this
    split <;> exact this

/-- A size check that passes on a file has seen as many bytes as were declared. -/
theorem checkFileSize_ok (env : Env) (path : String) (expectedSize : Int) (w : World)
    (content : Bytes) (hfile : nodeAt w.fs (resolve env.cwd path) = some (Node.file content))
    (h : (GithubReleaseSync.checkFileSize env path expectedSize w).1 = none) :
    (content.length : Int) = expectedSize := by
  unfold GithubReleaseSync.checkFileSize at h
  split at h
  · simp at h
  · rename_i size w1 hs
    split at h
    · simp at h
    · rename_i hsize
      push_neg at hsize
      unfold osStatSize at hs
      split at hs
      · simp at hs
      · split at hs
        · simp at hs
        · rw [hfile] at hs
          simp at hs
          rw [hs.1]
          exact hsize

theorem osOpen_fs (env : Env) (path : String) (w : World) :
    (osOpen env path w).2.fs = w.fs := by
  unfold osOpen
  repeat' split
  all_goals rfl

theorem readAllOpened_fs (env : Env) (path : String) (n : Node) (w : World) :
    (readAllOpened env path n w).2.fs = w.fs := by
  unfold readAllOpened
  repeat' split
  all_goals rfl

theorem checkFileChecksum_fs (env : Env) (path expected : String) (w : World) :
    (GithubReleaseSync.checkFileChecksum env path expected w).2.fs = w.fs := by
  unfold GithubReleaseSync.checkFileChecksum
  split
  · rfl
  · cases ho : osOpen env path w with
    | mk r w1 =>
      have h1 := osOpen_fs env path w
      rw [ho] at h1
      cases r with
      | error e => exact h1
      | ok f =>
        simp only
        cases hr : readAllOpened env path f w1 with
        | mk r2 w2 =>
          have h2 := readAllOpened_fs env path f w1
          rw [hr] at h2
          cases r2 with
          | error e => simp only; rw [h2, h1]
          | ok c =>
            simp only
            split <;> (simp only; rw [h2, h1])

/-- A checksum check that passes on a file has found the expected string equal to the
lower-case hex SHA-256 digest of its contents. -/
theorem checkFileChecksum_ok (env : Env) (path expected : String) (w : World)
    (content : Bytes) (hfile : nodeAt w.fs (resolve env.cwd path) = some (Node.file content))
    (h : (GithubReleaseSync.checkFileChecksum env path expected w).1 = .ret none) :
    hexLower (sha256Sum content) = expected := by
  unfold GithubReleaseSync.checkFileChecksum at h
  split at h
  · simp at h
  · split at h
    · simp at h
    · rename_i f w1 ho
      split at h
      · simp at h
      · rename_i c w2 hr
        simp only at h
        split at h
        · simp at h
        · rename_i hsum
          push_neg at hsum
          unfold osOpen at ho
          split at ho
          · simp at ho
          · split at ho
            · simp at ho
            · rw [hfile] at ho
              simp at ho
              unfold readAllOpened at hr
              split at hr
              · simp at hr
              · rw [← ho.1] at hr
                simp at hr
                rw [hr.1]
                exact hsum

/-! ## The asset loop -/

theorem syncAsset_fs (env : Env) (d : GithubReleaseSync) (m : List (String × String))
    (tmp : String) (a : GithubReleaseAssetAPI) (w : World) (q : Path)
    (hq : q ≠ resolve env.cwd (filepathJoin [tmp, a.Name])) :
    (GithubReleaseSync.syncAsset env d m tmp a w).2.fs q = w.fs q := by
  unfold GithubReleaseSync.syncAsset
  simp only
  cases hd : GithubReleaseSync.downloadFile env a.BrowserDownloadURL
      (filepathJoin [tmp, a.Name]) w with
  | mk r w1 =>
    have h1 := downloadFile_fs env a.BrowserDownloadURL (filepathJoin [tmp, a.Name]) w q hq
    rw [hd] at h1
    cases r with
    | some e => exact h1
    | none =>
      simp only
      cases hs : GithubReleaseSync.checkFileSize env (filepathJoin [tmp, a.Name]) a.Size w1 with
      | mk r2 w2 =>
        have h2 := checkFileSize_fs env (filepathJoin [tmp, a.Name]) a.Size w1
        rw [hs] at h2
        cases r2 with
        | some e => simp only; rw [h2]; exact h1
        | none =>
          simp only
          split
          · cases hc : GithubReleaseSync.checkFileChecksum env (filepathJoin [tmp, a.Name])
                (mapGet m a.Name) w2 with
            | mk r3 w3 =>
              have h3 := checkFileChecksum_fs env (filepathJoin [tmp, a.Name])
                (mapGet m a.Name) w2
              rw [hc] at h3
              cases r3 with
              | panic msg => simp only; rw [h3, h2]; exact h1
              | ret o =>
                cases o with
                | some e => simp only; rw [h3, h2]; exact h1
                | none => simp only; rw [h3, h2]; exact h1
          · simp only; rw [h2]; exact h1

/-- An asset that passes leaves its file in place: as many bytes as declared and, when
checksums are validated, the digest the checksum map holds for its name. -/
theorem syncAsset_ok (env : Env) (d : GithubReleaseSync) (m : List (String × String))
    (tmp : String) (a : GithubReleaseAssetAPI) (w : World)
    (hne : resolve env.cwd (filepathJoin [tmp, a.Name]) ≠ [])
    (h : (GithubReleaseSync.syncAsset env d m tmp a w).1 = .ret none) :
    ∃ content,
      (GithubReleaseSync.syncAsset env d m tmp a w).2.fs
          (resolve env.cwd (filepathJoin [tmp, a.Name])) = some (Node.file content) ∧
      (content.length : Int) = a.Size ∧
      (d.opts.DisableChecksumValidation = false →
        hexLower (sha256Sum content) = mapGet m a.Name) := by
  unfold GithubReleaseSync.syncAsset at h ⊢
  simp only at h ⊢
  cases hd : GithubReleaseSync.downloadFile env a.BrowserDownloadURL
      (filepathJoin [tmp, a.Name]) w with
  | mk r w1 =>
    have h1 := downloadFile_ok env a.BrowserDownloadURL (filepathJoin [tmp, a.Name]) w
    rw [hd] at h1 h
    cases r with
    | some e => simp at h
    | none =>
      obtain ⟨resp, -, -, hfile⟩ := h1 rfl
      simp only at h hfile ⊢
      have hnode : ∀ fs : FS, fs = w1.fs →
          nodeAt fs (resolve env.cwd (filepathJoin [tmp, a.Name])) =
            some (Node.file resp.Body) := by
        intro fs e
        subst e
        simp [nodeAt, hne, hfile]
      cases hs : GithubReleaseSync.checkFileSize env (filepathJoin [tmp, a.Name]) a.Size w1 with
      | mk r2 w2 =>
        have h2 := checkFileSize_fs env (filepathJoin [tmp, a.Name]) a.Size w1
        have h2' := checkFileSize_ok env (filepathJoin [tmp, a.Name]) a.Size w1 resp.Body
          (hnode _ rfl)
        rw [hs] at h2 h2' h
        cases r2 with
        | some e => simp at h
        | none =>
          simp only at h h2 ⊢
          have hlen := h2' rfl
          by_cases hdis : d.opts.DisableChecksumValidation = true
          · simp only [hdis, Bool.not_true, Bool.false_eq_true, if_false] at h ⊢
            exact ⟨resp.Body, by rw [h2]; exact hfile, hlen, by simp⟩
          · simp only [hdis, Bool.not_false, if_true] at h ⊢
            cases hc : GithubReleaseSync.checkFileChecksum env (filepathJoin [tmp, a.Name])
                (mapGet m a.Name) w2 with
            | mk r3 w3 =>
              have h3 := checkFileChecksum_fs env (filepathJoin [tmp, a.Name])
                (mapGet m a.Name) w2
              have h3' := checkFileChecksum_ok env (filepathJoin [tmp, a.Name])
                (mapGet m a.Name) w2 resp.Body (hnode _ h2)
              rw [hc] at h3 h3' h
              cases r3 with
              | panic msg => simp at h
              | ret o =>
                cases o with
                | some e => simp at h
                | none =>
                  simp only at h3 ⊢
                  exact ⟨resp.Body, by rw [h3, h2]; exact hfile, hlen, fun _ => h3' rfl⟩

theorem syncAssets_cons_ok (env : Env) (d : GithubReleaseSync) (m : List (String × String))
    (tmp : String) (a : GithubReleaseAssetAPI) (rest : List GithubReleaseAssetAPI) (w : World)
    (h : (GithubReleaseSync.syncAsset env d m tmp a w).1 = .ret none) :
    GithubReleaseSync.syncAssets env d m tmp (a :: rest) w =
      GithubReleaseSync.syncAssets env d m tmp rest
        (GithubReleaseSync.syncAsset env d m tmp a w).2 := by
  cases hs : GithubReleaseSync.syncAsset env d m tmp a w with
  | mk r w1 =>
    rw [hs] at h
    simp only at h
    subst h
    simp [GithubReleaseSync.syncAssets, hs]

theorem syncAssets_cons_stop (env : Env) (d : GithubReleaseSync) (m : List (String × String))
    (tmp : String) (a : GithubReleaseAssetAPI) (rest : List GithubReleaseAssetAPI) (w : World)
    (h : (GithubReleaseSync.syncAsset env d m tmp a w).1 ≠ .ret none) :
    GithubReleaseSync.syncAssets env d m tmp (a :: rest) w =
      GithubReleaseSync.syncAsset env d m tmp a w := by
  cases hs : GithubReleaseSync.syncAsset env d m tmp a w with
  | mk r w1 =>
    rw [hs] at h
    simp only at h
    unfold GithubReleaseSync.syncAssets
    rw [hs]
    split
    · rename_i heq
      simp at heq
      exact absurd heq.1 h
    · rfl

theorem syncAssets_fs (env : Env) (d : GithubReleaseSync) (m : List (String × String))
    (tmp : String) (assets : List GithubReleaseAssetAPI) (w : World) (q : Path)
    (hq : ∀ a ∈ assets, q ≠ resolve env.cwd (filepathJoin [tmp, a.Name])) :
    (GithubReleaseSync.syncAssets env d m tmp assets w).2.fs q = w.fs q := by
  induction assets generalizing w with
  | nil => rfl
  | cons a rest ih =>
    have ha := syncAsset_fs env d m tmp a w q (hq a (by simp))
    by_cases h : (GithubReleaseSync.syncAsset env d m tmp a w).1 = .ret none
    · rw [syncAssets_cons_ok _ _ _ _ _ _ _ h, ih _ (fun b hb => hq b (by simp [hb])), ha]
    · rw [syncAssets_cons_stop _ _ _ _ _ _ _ h, ha]

/-- When the loop passes and no two assets share a path, every asset's file is in place at
the end: as many bytes as declared and, when checksums are validated, the digest the checksum
map holds for its name. -/
theorem syncAssets_ok (env : Env) (d : GithubReleaseSync) (m : List (String × String))
    (tmp : String) (assets : List GithubReleaseAssetAPI) (w : World)
    (hne : ∀ a ∈ assets, resolve env.cwd (filepathJoin [tmp, a.Name]) ≠ [])
    (hnd : (assets.map (fun a => resolve env.cwd (filepathJoin [tmp, a.Name]))).Nodup)
    (h : (GithubReleaseSync.syncAssets env d m tmp assets w).1 = .ret none) :
    ∀ a ∈ assets, ∃ content,
      (GithubReleaseSync.syncAssets env d m tmp assets w).2.fs
          (resolve env.cwd (filepathJoin [tmp, a.Name])) = some (Node.file content) ∧
      (content.length : Int) = a.Size ∧
      (d.opts.DisableChecksumValidation = false →
        hexLower (sha256Sum content) = mapGet m a.Name) := by
  induction assets generalizing w with
  | nil => intro a ha; simp at ha
  | cons b rest ih =>
    have hb : (GithubReleaseSync.syncAsset env d m tmp b w).1 = .ret none := by
      by_contra hcon
      rw [syncAssets_cons_stop _ _ _ _ _ _ _ hcon] at h
      exact hcon h
    rw [syncAssets_cons_ok _ _ _ _ _ _ _ hb] at h ⊢
    simp only [List.map_cons, List.nodup_cons] at hnd
    intro a ha
    rcases List.mem_cons.1 ha with e | e
    · subst e
      obtain ⟨content, hfile, hrest⟩ := syncAsset_ok env d m tmp a w (hne a (by simp)) hb
      refine ⟨content, ?_, hrest⟩
      rw [syncAssets_fs _ _ _ _ _ _ _ ?_]
      · exact hfile
      · intro c hc heq
        apply hnd.1
        rw [heq]
        exact List.mem_map.2 ⟨c, hc, rfl⟩
    · exact ih _ (fun c hc => hne c (by simp [hc])) hnd.2 h a e

/-! ## The steps of `Sync` -/

theorem downloadRelease_fs (env : Env) (d : GithubReleaseSync) (w : World) :
    (GithubReleaseSync.downloadRelease env d w).2.fs = w.fs := by
  unfold GithubReleaseSync.downloadRelease
  simp only
  repeat' split
  all_goals rfl

theorem syncAsset_err_before (env : Env) (d : GithubReleaseSync) (m : List (String × String))
    (tmp : String) (a : GithubReleaseAssetAPI) (w : World) (err : SyncError)
    (h : (GithubReleaseSync.syncAsset env d m tmp a w).1 = .ret (some err)) :
    err.beforeRemoval = true := by
  unfold GithubReleaseSync.syncAsset at h
  simp only at h
  repeat' split at h
  all_goals first
    | (simp at h; subst h; rfl)
    | (simp at h)

theorem syncAssets_err_before (env : Env) (d : GithubReleaseSync) (m : List (String × String))
    (tmp : String) (assets : List GithubReleaseAssetAPI) (w : World) (err : SyncError)
    (h : (GithubReleaseSync.syncAssets env d m tmp assets w).1 = .ret (some err)) :
    err.beforeRemoval = true := by
  induction assets generalizing w with
  | nil => simp [GithubReleaseSync.syncAssets] at h
  | cons a rest ih =>
    by_cases ha : (GithubReleaseSync.syncAsset env d m tmp a w).1 = .ret none
    · rw [syncAssets_cons_ok _ _ _ _ _ _ _ ha] at h
      exact ih _ h
    · rw [syncAssets_cons_stop _ _ _ _ _ _ _ ha] at h
      exact syncAsset_err_before _ _ _ _ _ _ _ h

/-- The publish step in full: either `os.RemoveAll(dstPath)` fails, or it succeeds and
`os.Rename` fails, or both succeed. -/
theorem syncPublish_cases (env : Env) (tmp dst : String) (w : World) :
    (∃ err, (osRemoveAll env dst w).1 = some err ∧
      GithubReleaseSync.syncPublish env tmp dst w =
        (some (.deletingDir dst err), (osRemoveAll env dst w).2)) ∨
    ((osRemoveAll env dst w).1 = none ∧
      ∃ err, (osRename env tmp dst (osRemoveAll env dst w).2).1 = some err ∧
        GithubReleaseSync.syncPublish env tmp dst w =
          (some (.movingDirectory tmp err), (osRename env tmp dst (osRemoveAll env dst w).2).2)) ∨
    ((osRemoveAll env dst w).1 = none ∧
      (osRename env tmp dst (osRemoveAll env dst w).2).1 = none ∧
      GithubReleaseSync.syncPublish env tmp dst w =
        (none, (osRename env tmp dst (osRemoveAll env dst w).2).2)) := by
  unfold GithubReleaseSync.syncPublish
  cases hr : osRemoveAll env dst w with
  | mk r w1 =>
    cases r with
    | some err => left; exact ⟨err, rfl, rfl⟩
    | none =>
      right
      cases hn : osRename env tmp dst w1 with
      | mk r2 w2 =>
        cases r2 with
        | some err => left; exact ⟨rfl, err, rfl, by simp [hn]⟩
        | none => right; exact ⟨rfl, rfl, by simp [hn]⟩

/-- The body of `Sync` in full: the step at which it stops, its result and the world it
leaves. -/
theorem syncBody_cases (env : Env) (d : GithubReleaseSync) (tmp dst : String) (w : World) :
    (∃ err, (GithubReleaseSync.downloadRelease env d w).1 = .error err ∧
      GithubReleaseSync.syncBody env d tmp dst w =
        (.ret ({ URL := "" }, some (.downloadingReleaseInfo err)),
          (GithubReleaseSync.downloadRelease env d w).2)) ∨
    (∃ release, (GithubReleaseSync.downloadRelease env d w).1 = .ok release ∧
      ((∃ err, GithubReleaseSync.syncChecksums env d release = .error err ∧
          GithubReleaseSync.syncBody env d tmp dst w =
            (.ret ({ URL := release.URL }, some (.findingChecksums err)),
              (GithubReleaseSync.downloadRelease env d w).2)) ∨
        (∃ m, GithubReleaseSync.syncChecksums env d release = .ok m ∧
          ((∃ msg, (GithubReleaseSync.syncAssets env d m tmp release.Assets
                (GithubReleaseSync.downloadRelease env d w).2).1 = .panic msg ∧
              GithubReleaseSync.syncBody env d tmp dst w =
                (.panic msg, (GithubReleaseSync.syncAssets env d m tmp release.Assets
                  (GithubReleaseSync.downloadRelease env d w).2).2)) ∨
            (∃ err, (GithubReleaseSync.syncAssets env d m tmp release.Assets
                (GithubReleaseSync.downloadRelease env d w).2).1 = .ret (some err) ∧
              GithubReleaseSync.syncBody env d tmp dst w =
                (.ret ({ URL := release.URL }, some err),
                  (GithubReleaseSync.syncAssets env d m tmp release.Assets
                    (GithubReleaseSync.downloadRelease env d w).2).2)) ∨
            ((GithubReleaseSync.syncAssets env d m tmp release.Assets
                (GithubReleaseSync.downloadRelease env d w).2).1 = .ret none ∧
              GithubReleaseSync.syncBody env d tmp dst w =
                (.ret ({ URL := release.URL },
                    (GithubReleaseSync.syncPublish env tmp dst
                      (GithubReleaseSync.syncAssets env d m tmp release.Assets
                        (GithubReleaseSync.downloadRelease env d w).2).2).1),
                  (GithubReleaseSync.syncPublish env tmp dst
                    (GithubReleaseSync.syncAssets env d m tmp release.Assets
                      (GithubReleaseSync.downloadRelease env d w).2).2).2)))))) := by
  unfold GithubReleaseSync.syncBody
  cases hr : GithubReleaseSync.downloadRelease env d w with
  | mk r w1 =>
    cases r with
    | error err => left; exact ⟨err, rfl, rfl⟩
    | ok release =>
      right
      refine ⟨release, rfl, ?_⟩
      simp only
      cases hc : GithubReleaseSync.syncChecksums env d release with
      | error err => left; exact ⟨err, rfl, rfl⟩
      | ok m =>
        right
        refine ⟨m, rfl, ?_⟩
        simp only
        cases ha : GithubReleaseSync.syncAssets env d m tmp release.Assets w1 with
        | mk o w2 =>
          cases o with
          | panic msg => left; exact ⟨msg, rfl, rfl⟩
          | ret e =>
            cases e with
            | some err => right; left; exact ⟨err, rfl, rfl⟩
            | none => right; right; exact ⟨rfl, rfl⟩

/-- `Sync` in full: either the staging directory cannot be made, or the body runs and the
deferred removal of the staging directory follows. -/
theorem Sync_cases (env : Env) (d : GithubReleaseSync) (dst : String) (w : World) :
    (∃ err, (osMkdirAll env (stagingPath env) w).1 = some err ∧
      GithubReleaseSync.Sync env d dst w =
        (.ret ({ URL := "" }, some (.creatingIncomingDir (stagingPath env) err)),
          (osMkdirAll env (stagingPath env) w).2)) ∨
    ((osMkdirAll env (stagingPath env) w).1 = none ∧
      GithubReleaseSync.Sync env d dst w =
        ((GithubReleaseSync.syncBody env d (stagingPath env) dst
            (osMkdirAll env (stagingPath env) w).2).1,
          (osRemoveAll env (stagingPath env)
            (GithubReleaseSync.syncBody env d (stagingPath env) dst
              (osMkdirAll env (stagingPath env) w).2).2).2)) := by
  unfold GithubReleaseSync.Sync stagingPath
  simp only
  cases hm : osMkdirAll env (filepathJoin [env.incomingTmpDir, "github-release"]) w with
  | mk r w1 =>
    cases r with
    | some err => left; exact ⟨err, rfl, rfl⟩
    | none => right; exact ⟨rfl, rfl⟩

theorem foldl_climbStep_none (comps : List (List Char)) :
    comps.foldl climbStep none = none := by
  induction comps with
  | nil => rfl
  | cons c cs ih => simpa [List.foldl_cons, climbStep] using ih

/-- Elements that never climb above a directory resolve to a path below it. -/
theorem foldl_resolveStep_below (base : List (List Char)) (comps extra : List (List Char))
    (h : (comps.foldl climbStep (some extra.length)).isSome = true) :
    ∃ extra', comps.foldl resolveStep (base ++ extra) = base ++ extra' := by
  induction comps generalizing extra with
  | nil => exact ⟨extra, rfl⟩
  | cons c cs ih =>
    simp only [List.foldl_cons] at h ⊢
    by_cases h1 : c = [] ∨ c = ['.']
    · have e1 : climbStep (some extra.length) c = some extra.length := by
        simp [climbStep, h1]
      have e2 : resolveStep (base ++ extra) c = base ++ extra := by
        simp [resolveStep, h1]
      rw [e1] at h
      rw [e2]
      exact ih extra h
    · by_cases h2 : c = ['.', '.']
      · by_cases h3 : extra.length = 0
        · have e1 : climbStep (some extra.length) c = none := by
            simp [climbStep, h1, h2, h3]
          rw [e1, foldl_climbStep_none] at h
          simp at h
        · have hne : extra ≠ [] := fun e => h3 (by simp [e])
          have e1 : climbStep (some extra.length) c = some extra.dropLast.length := by
            simp [climbStep, h1, h2, h3]
          have e2 : resolveStep (base ++ extra) c = base ++ extra.dropLast := by
            simp only [resolveStep, h1, h2, if_false, if_true]
            exact List.dropLast_append_of_ne_nil _ hne
          rw [e1] at h
          rw [e2]
          exact ih _ h
      · have e1 : climbStep (some extra.length) c = some (extra ++ [c]).length := by
          simp [climbStep, h1, h2]
        have e2 : resolveStep (base ++ extra) c = base ++ (extra ++ [c]) := by
          simp [resolveStep, h1, h2]
        rw [e1] at h
        rw [e2]
        exact ih _ h

/-- Joining a name that never climbs above the directory it is joined to gives a path inside
that directory. -/
theorem resolve_filepathJoin_below (cwd : Path) (a n : String) (ha : a ≠ "")
    (hn : staysBelow n = true) :
    resolve cwd a <+: resolve cwd (filepathJoin [a, n]) := by
  have e : filepathJoin [a, n] = String.mk (cleanChars (a.data ++ '/' :: n.data)) := by
    simp [filepathJoin, List.dropWhile, ha, joinChar]
  have hd : a.data ≠ [] := fun e2 => ha (String.ext (by simpa using e2))
  have hhead : (a.data ++ '/' :: n.data).head? = a.data.head? := by
    cases h : a.data with
    | nil => exact absurd h hd
    | cons c cs => simp
  rw [e, resolve_mk_cleanChars]
  simp only [resolve, hhead, splitChar_append_sep, List.foldl_append]
  obtain ⟨extra', he⟩ := foldl_resolveStep_below
    ((splitChar '/' a.data).foldl resolveStep
      (if a.data.head? = some '/' then [] else cwd.map String.data))
    (splitChar '/' n.data) [] (by simpa [staysBelow] using hn)
  simp only [List.append_nil] at he
  rw [he, List.map_append]
  exact List.prefix_append _ _

theorem stagingPath_ne_empty (env : Env) : stagingPath env ≠ "" := by
  unfold stagingPath
  have hc : ∀ x : List Char, cleanChars x ≠ [] := by
    intro x
    unfold cleanChars
    intro h
    simp only at h
    split_ifs at h <;> simp_all
  intro h
  unfold filepathJoin at h
  by_cases ha : env.incomingTmpDir = ""
  · simp [List.dropWhile, ha] at h
    exact hc _ (by simpa using congrArg String.data h)
  · simp [List.dropWhile, ha] at h
    exact hc _ (by simpa using congrArg String.data h)

theorem plainName_staysBelow (n : String) (h : plainName n) : staysBelow n = true := by
  unfold staysBelow
  rw [(plainName_chars n h).1]
  simp [climbStep, h.1, h.2.2.1, h.2.2.2]

/-! ## What a run of `Sync` changes -/

theorem asset_path_plain (env : Env) (tmp : String) (a : GithubReleaseAssetAPI)
    (h : plainName a.Name) :
    resolve env.cwd (filepathJoin [tmp, a.Name]) = resolve env.cwd tmp ++ [a.Name] :=
  resolve_filepathJoin env.cwd tmp a.Name h

/-- When every download path lies inside the staging directory, the loop writes below the
staging directory only. -/
theorem syncAssets_fs_outside (env : Env) (d : GithubReleaseSync) (m : List (String × String))
    (tmp : String) (assets : List GithubReleaseAssetAPI) (w : World)
    (hin : ∀ a ∈ assets, resolve env.cwd tmp <+: resolve env.cwd (filepathJoin [tmp, a.Name]))
    (q : Path) (hq : ¬ resolve env.cwd tmp <+: q) :
    (GithubReleaseSync.syncAssets env d m tmp assets w).2.fs q = w.fs q := by
  apply syncAssets_fs
  intro a ha e
  apply hq
  rw [e]
  exact hin a ha

theorem loopStart_fs (env : Env) (d : GithubReleaseSync) (w : World) (q : Path)
    (hq : ¬ q <+: resolve env.cwd (stagingPath env)) : (loopStart env d w).fs q = w.fs q := by
  unfold loopStart
  rw [downloadRelease_fs]
  exact osMkdirAll_fs env _ w q hq

/-- A run that gets past the asset loop: the staging directory was made, the release was
downloaded, its checksums were found, every asset passed, and the result is that of the
publish step, followed by the deferred removal of the staging directory. -/
theorem Sync_reaches_publish (env : Env) (d : GithubReleaseSync) (dst : String) (w : World)
    (h : stoppedBeforeRemoval (GithubReleaseSync.Sync env d dst w).1 = false) :
    ∃ release m, (osMkdirAll env (stagingPath env) w).1 = none ∧
      releaseOf env d w = .ok release ∧
      GithubReleaseSync.syncChecksums env d release = .ok m ∧
      (staged env d w release m).1 = .ret none ∧
      GithubReleaseSync.Sync env d dst w =
        (.ret ({ URL := release.URL },
            (GithubReleaseSync.syncPublish env (stagingPath env) dst
              (staged env d w release m).2).1),
          (osRemoveAll env (stagingPath env)
            (GithubReleaseSync.syncPublish env (stagingPath env) dst
              (staged env d w release m).2).2).2) := by
  rcases Sync_cases env d dst w with ⟨err, _, hS⟩ | ⟨hmk, hS⟩
  · rw [hS] at h
    simp [stoppedBeforeRemoval, SyncError.beforeRemoval] at h
  · rcases syncBody_cases env d (stagingPath env) dst (osMkdirAll env (stagingPath env) w).2
      with ⟨err, _, hB⟩ | ⟨release, hrel, ⟨err, _, hB⟩ | ⟨m, hm, hcase⟩⟩
    · rw [hS, hB] at h
      simp [stoppedBeforeRemoval, SyncError.beforeRemoval] at h
    · rw [hS, hB] at h
      simp [stoppedBeforeRemoval, SyncError.beforeRemoval] at h
    · rcases hcase with ⟨msg, _, hB⟩ | ⟨err, herr, hB⟩ | ⟨hok, hB⟩
      · rw [hS, hB] at h
        simp [stoppedBeforeRemoval] at h
      · rw [hS, hB] at h
        have := syncAssets_err_before _ _ _ _ _ _ _ herr
        simp [stoppedBeforeRemoval, this] at h
      · refine ⟨release, m, hmk, hrel, hm, hok, ?_⟩
        rw [hS, hB]
        rfl

/-- A run that stops before the publish step changes nothing outside the staging directory
and the directories leading to it, provided the download paths lie inside the staging
directory. -/
theorem Sync_fs_before (env : Env) (d : GithubReleaseSync) (dst : String) (w : World)
    (hin : ∀ release, releaseOf env d w = .ok release → ∀ a ∈ release.Assets,
      resolve env.cwd (stagingPath env) <+:
        resolve env.cwd (filepathJoin [stagingPath env, a.Name]))
    (h : stoppedBeforeRemoval (GithubReleaseSync.Sync env d dst w).1 = true) (q : Path)
    (hq1 : ¬ resolve env.cwd (stagingPath env) <+: q)
    (hq2 : ¬ q <+: resolve env.cwd (stagingPath env)) :
    (GithubReleaseSync.Sync env d dst w).2.fs q = w.fs q := by
  rcases Sync_cases env d dst w with ⟨err, _, hS⟩ | ⟨hmk, hS⟩
  · rw [hS]
    exact osMkdirAll_fs env _ w q hq2
  · rw [hS] at h ⊢
    simp only at h ⊢
    rw [osRemoveAll_fs env _ _ q hq1]
    have hstart := loopStart_fs env d w q hq2
    unfold loopStart at hstart
    rcases syncBody_cases env d (stagingPath env) dst (osMkdirAll env (stagingPath env) w).2
      with ⟨err, _, hB⟩ | ⟨release, hrel, ⟨err, _, hB⟩ | ⟨m, hm, hcase⟩⟩
    · rw [hB]; exact hstart
    · rw [hB]; exact hstart
    · have hp := hin release hrel
      rcases hcase with ⟨msg, _, hB⟩ | ⟨err, herr, hB⟩ | ⟨hok, hB⟩
      · rw [hB]
        simp only
        rw [syncAssets_fs_outside env d m _ _ _ hp q hq1]
        exact hstart
      · rw [hB]
        simp only
        rw [syncAssets_fs_outside env d m _ _ _ hp q hq1]
        exact hstart
      · exfalso
        rw [hB] at h
        rcases syncPublish_cases env (stagingPath env) dst
            (GithubReleaseSync.syncAssets env d m (stagingPath env) release.Assets
              (GithubReleaseSync.downloadRelease env d
                (osMkdirAll env (stagingPath env) w).2).2).2
          with ⟨err, _, hP⟩ | ⟨_, err, _, hP⟩ | ⟨_, _, hP⟩
        all_goals
          rw [hP] at h
          simp [stoppedBeforeRemoval, SyncError.beforeRemoval] at h

/-- Two paths that are both above the same path are one above the other. -/
theorem prefix_comparable (a b q : Path) (ha : a <+: q) (hb : b <+: q) : a <+: b ∨ b <+: a := by
  rcases Nat.le_total a.length b.length with h | h
  · left; exact List.prefix_of_prefix_length_le ha hb h
  · right; exact List.prefix_of_prefix_length_le hb ha h

theorem outside_of_below (sp dp q : Path) (h1 : ¬ sp <+: dp) (h2 : ¬ dp <+: sp)
    (hq : dp <+: q) : ¬ sp <+: q ∧ ¬ q <+: sp := by
  constructor
  · intro h
    rcases prefix_comparable sp dp q h hq with h' | h'
    · exact h1 h'
    · exact h2 h'
  · intro h
    exact h2 (hq.trans h)

theorem syncAssets_append_ok (env : Env) (d : GithubReleaseSync) (m : List (String × String))
    (tmp : String) (pre rest : List GithubReleaseAssetAPI) (w : World)
    (h : (GithubReleaseSync.syncAssets env d m tmp pre w).1 = .ret none) :
    GithubReleaseSync.syncAssets env d m tmp (pre ++ rest) w =
      GithubReleaseSync.syncAssets env d m tmp rest
        (GithubReleaseSync.syncAssets env d m tmp pre w).2 := by
  induction pre generalizing w with
  | nil => rfl
  | cons a pre ih =>
    have ha : (GithubReleaseSync.syncAsset env d m tmp a w).1 = .ret none := by
      by_contra hcon
      rw [syncAssets_cons_stop _ _ _ _ _ _ _ hcon] at h
      exact hcon h
    rw [syncAssets_cons_ok _ _ _ _ _ _ _ ha] at h ⊢
    rw [List.cons_append, syncAssets_cons_ok _ _ _ _ _ _ _ ha]
    exact ih _ h

/-- The size check on a file that `os.Stat` can read: an error naming the expected and the
actual size when they differ. -/
theorem checkFileSize_mismatch (env : Env) (path : String) (expected : Int) (w : World)
    (content : Bytes) (hpath : path ≠ "") (hfault : env.fault w.clock = none)
    (hfile : nodeAt w.fs (resolve env.cwd path) = some (Node.file content))
    (hsize : (content.length : Int) ≠ expected) :
    (GithubReleaseSync.checkFileSize env path expected w).1 =
      some ("Expected file size to be " ++ toString expected ++ ", but was " ++
        toString (content.length : Int)) := by
  unfold GithubReleaseSync.checkFileSize osStatSize
  simp [hpath, hfault, hfile, hsize]

theorem filepathJoin_ne_empty (a n : String) (ha : a ≠ "") : filepathJoin [a, n] ≠ "" := by
  have hc : ∀ x : List Char, cleanChars x ≠ [] := by
    intro x
    unfold cleanChars
    intro h
    simp only at h
    split_ifs at h <;> simp_all
  intro h
  unfold filepathJoin at h
  simp [List.dropWhile, ha] at h
  exact hc _ (by simpa using congrArg String.data h)

/-- An asset whose download succeeds with a byte count other than the declared size fails
the loop body with the size error. -/
theorem syncAsset_size_mismatch (env : Env) (d : GithubReleaseSync)
    (m : List (String × String)) (tmp : String) (a : GithubReleaseAssetAPI) (w : World)
    (content : Bytes) (htmp : tmp ≠ "")
    (hdl : (GithubReleaseSync.downloadFile env a.BrowserDownloadURL
      (filepathJoin [tmp, a.Name]) w).1 = none)
    (hfault : env.fault (GithubReleaseSync.downloadFile env a.BrowserDownloadURL
      (filepathJoin [tmp, a.Name]) w).2.clock = none)
    (hfile : nodeAt (GithubReleaseSync.downloadFile env a.BrowserDownloadURL
      (filepathJoin [tmp, a.Name]) w).2.fs (resolve env.cwd (filepathJoin [tmp, a.Name])) =
        some (Node.file content))
    (hsize : (content.length : Int) ≠ a.Size) :
    (GithubReleaseSync.syncAsset env d m tmp a w).1 =
      .ret (some (.checkingSize a.Name ("Expected file size to be " ++ toString a.Size ++
        ", but was " ++ toString (content.length : Int)))) := by
  have hcheck := checkFileSize_mismatch env (filepathJoin [tmp, a.Name]) a.Size
    (GithubReleaseSync.downloadFile env a.BrowserDownloadURL (filepathJoin [tmp, a.Name]) w).2
    content (filepathJoin_ne_empty tmp a.Name htmp) hfault hfile hsize
  unfold GithubReleaseSync.syncAsset
  simp only
  cases hd : GithubReleaseSync.downloadFile env a.BrowserDownloadURL
      (filepathJoin [tmp, a.Name]) w with
  | mk r w1 =>
    rw [hd] at hdl hcheck
    simp only at hdl hcheck
    subst hdl
    simp only
    cases hs : GithubReleaseSync.checkFileSize env (filepathJoin [tmp, a.Name]) a.Size w1 with
    | mk r2 w2 =>
      rw [hs] at hcheck
      simp only at hcheck
      subst hcheck
      rfl

/-- The body of `Sync` when the loop returns an error: that error, with the lock record of
the release. -/
theorem Sync_of_loop_error (env : Env) (d : GithubReleaseSync) (dst : String) (w : World)
    (release : GithubReleaseAPI) (m : List (String × String)) (err : SyncError)
    (hmk : (osMkdirAll env (stagingPath env) w).1 = none)
    (hrel : releaseOf env d w = .ok release)
    (hm : GithubReleaseSync.syncChecksums env d release = .ok m)
    (hloop : (staged env d w release m).1 = .ret (some err)) :
    (GithubReleaseSync.Sync env d dst w).1 = .ret ({ URL := release.URL }, some err) := by
  unfold releaseOf at hrel
  unfold staged loopStart at hloop
  rcases Sync_cases env d dst w with ⟨e, he, _⟩ | ⟨_, hS⟩
  · rw [hmk] at he; simp at he
  · rw [hS]
    simp only
    rcases syncBody_cases env d (stagingPath env) dst (osMkdirAll env (stagingPath env) w).2
      with ⟨e, he, _⟩ | ⟨release', hrel', ⟨e, he, _⟩ | ⟨m', hm', hcase⟩⟩
    · rw [hrel] at he; simp at he
    · rw [hrel] at hrel'
      simp at hrel'
      subst hrel'
      rw [hm] at he; simp at he
    · rw [hrel] at hrel'
      simp at hrel'
      subst hrel'
      rw [hm] at hm'
      simp at hm'
      subst hm'
      rcases hcase with ⟨msg, hp, _⟩ | ⟨e, he, hB⟩ | ⟨hok, _⟩
      · rw [hloop] at hp; simp at hp
      · rw [hloop] at he
        simp at he
        subst he
        rw [hB]
      · rw [hloop] at hok; simp at hok

/-- The same when the loop panics: `Sync` panics with it. -/
theorem Sync_of_loop_panic (env : Env) (d : GithubReleaseSync) (dst : String) (w : World)
    (release : GithubReleaseAPI) (m : List (String × String)) (msg : String)
    (hmk : (osMkdirAll env (stagingPath env) w).1 = none)
    (hrel : releaseOf env d w = .ok release)
    (hm : GithubReleaseSync.syncChecksums env d release = .ok m)
    (hloop : (staged env d w release m).1 = .panic msg) :
    (GithubReleaseSync.Sync env d dst w).1 = .panic msg := by
  unfold releaseOf at hrel
  unfold staged loopStart at hloop
  rcases Sync_cases env d dst w with ⟨e, he, _⟩ | ⟨_, hS⟩
  · rw [hmk] at he; simp at he
  · rw [hS]
    simp only
    rcases syncBody_cases env d (stagingPath env) dst (osMkdirAll env (stagingPath env) w).2
      with ⟨e, he, _⟩ | ⟨release', hrel', ⟨e, he, _⟩ | ⟨m', hm', hcase⟩⟩
    · rw [hrel] at he; simp at he
    · rw [hrel] at hrel'
      simp at hrel'
      subst hrel'
      rw [hm] at he; simp at he
    · rw [hrel] at hrel'
      simp at hrel'
      subst hrel'
      rw [hm] at hm'
      simp at hm'
      subst hm'
      rcases hcase with ⟨msg', hp, hB⟩ | ⟨e, he, _⟩ | ⟨hok, _⟩
      · rw [hloop] at hp
        simp at hp
        subst hp
        rw [hB]
      · rw [hloop] at he; simp at he
      · rw [hloop] at hok; simp at hok

/-- **C2 (amended).** For a release whose download paths lie inside the staging directory
(as they do for plain file names) and a destination that neither contains nor lies in the
staging directory: when `Sync` stops at a step before the removal of the destination (making
the staging directory, fetching the metadata, finding the checksums, downloading an asset,
the size check, the checksum check) it returns an error, or panics, and everything at and
below the destination is as before. For a file `os.Stat` can read whose byte count differs
from the expected size, `checkFileSize` returns an error naming both sizes; and once the
assets before it have passed, an asset downloaded with a byte count other than its declared
size makes `Sync` return that error for it, the destination being as before. -/
theorem Sync_early_failure_keeps_destination (env : Env) (d : GithubReleaseSync)
    (dst : String) (w : World)
    (hdisj : ¬ resolve env.cwd (stagingPath env) <+: resolve env.cwd dst ∧
      ¬ resolve env.cwd dst <+: resolve env.cwd (stagingPath env))
    (hin : ∀ release, releaseOf env d w = .ok release → ∀ a ∈ release.Assets,
      resolve env.cwd (stagingPath env) <+:
        resolve env.cwd (filepathJoin [stagingPath env, a.Name])) :
    (stoppedBeforeRemoval (GithubReleaseSync.Sync env d dst w).1 = true →
      sameBelow (resolve env.cwd dst) w.fs (GithubReleaseSync.Sync env d dst w).2.fs) ∧
    (∀ (path : String) (expected : Int) (w0 : World) (content : Bytes),
      path ≠ "" → env.fault w0.clock = none →
      nodeAt w0.fs (resolve env.cwd path) = some (Node.file content) →
      (content.length : Int) ≠ expected →
      (GithubReleaseSync.checkFileSize env path expected w0).1 =
        some ("Expected file size to be " ++ toString expected ++ ", but was " ++
          toString (content.length : Int))) ∧
    (∀ (release : GithubReleaseAPI) (m : List (String × String))
      (pre post : List GithubReleaseAssetAPI) (a : GithubReleaseAssetAPI) (content : Bytes),
      (osMkdirAll env (stagingPath env) w).1 = none →
      releaseOf env d w = .ok release →
      GithubReleaseSync.syncChecksums env d release = .ok m →
      release.Assets = pre ++ a :: post →
      (GithubReleaseSync.syncAssets env d m (stagingPath env) pre (loopStart env d w)).1 =
        .ret none →
      (GithubReleaseSync.downloadFile env a.BrowserDownloadURL
        (filepathJoin [stagingPath env, a.Name])
        (GithubReleaseSync.syncAssets env d m (stagingPath env) pre
          (loopStart env d w)).2).1 = none →
      env.fault (GithubReleaseSync.downloadFile env a.BrowserDownloadURL
        (filepathJoin [stagingPath env, a.Name])
        (GithubReleaseSync.syncAssets env d m (stagingPath env) pre
          (loopStart env d w)).2).2.clock = none →
      nodeAt (GithubReleaseSync.downloadFile env a.BrowserDownloadURL
        (filepathJoin [stagingPath env, a.Name])
        (GithubReleaseSync.syncAssets env d m (stagingPath env) pre
          (loopStart env d w)).2).2.fs
          (resolve env.cwd (filepathJoin [stagingPath env, a.Name])) =
        some (Node.file content) →
      (content.length : Int) ≠ a.Size →
      (GithubReleaseSync.Sync env d dst w).1 =
          .ret ({ URL := release.URL }, some (.checkingSize a.Name
            ("Expected file size to be " ++ toString a.Size ++ ", but was " ++
              toString (content.length : Int)))) ∧
        sameBelow (resolve env.cwd dst) w.fs (GithubReleaseSync.Sync env d dst w).2.fs) := by
  have hframe : stoppedBeforeRemoval (GithubReleaseSync.Sync env d dst w).1 = true →
      sameBelow (resolve env.cwd dst) w.fs (GithubReleaseSync.Sync env d dst w).2.fs := by
    intro h q hq
    obtain ⟨h1, h2⟩ := outside_of_below _ _ q hdisj.1 hdisj.2 hq
    exact Sync_fs_before env d dst w hin h q h1 h2
  refine ⟨hframe, ?_, ?_⟩
  · intro path expected w0 content hpath hfault hfile hsize
    exact checkFileSize_mismatch env path expected w0 content hpath hfault hfile hsize
  · intro release m pre post a content hmk hrel hm hassets hpre hdl hfault hfile hsize
    have hasset := syncAsset_size_mismatch env d m (stagingPath env) a _ content
      (stagingPath_ne_empty env) hdl hfault hfile hsize
    have hloop : (staged env d w release m).1 = .ret (some (.checkingSize a.Name
        ("Expected file size to be " ++ toString a.Size ++ ", but was " ++
          toString (content.length : Int)))) := by
      unfold staged
      rw [hassets, syncAssets_append_ok _ _ _ _ _ _ _ hpre,
        syncAssets_cons_stop _ _ _ _ _ _ _ (by rw [hasset]; simp)]
      exact hasset
    have hsync := Sync_of_loop_error env d dst w release m _ hmk hrel hm hloop
    refine ⟨hsync, hframe ?_⟩
    rw [hsync]
    rfl

theorem staged_fs_outside (env : Env) (d : GithubReleaseSync) (w : World)
    (release : GithubReleaseAPI) (m : List (String × String))
    (hin : ∀ a ∈ release.Assets, resolve env.cwd (stagingPath env) <+:
      resolve env.cwd (filepathJoin [stagingPath env, a.Name])) (q : Path)
    (hq1 : ¬ resolve env.cwd (stagingPath env) <+: q)
    (hq2 : ¬ q <+: resolve env.cwd (stagingPath env)) :
    (staged env d w release m).2.fs q = w.fs q := by
  unfold staged
  rw [syncAssets_fs_outside env d m _ _ _ hin q hq1]
  exact loopStart_fs env d w q hq2

theorem not_prefix_append_of_disjoint (sp dp r : Path) (h1 : ¬ sp <+: dp) (h2 : ¬ dp <+: sp) :
    ¬ dp <+: sp ++ r ∧ ¬ sp <+: dp ++ r := by
  constructor
  · intro h
    rcases prefix_comparable dp sp (sp ++ r) h (List.prefix_append _ _) with h' | h'
    · exact h2 h'
    · exact h1 h'
  · intro h
    rcases prefix_comparable sp dp (dp ++ r) h (List.prefix_append _ _) with h' | h'
    · exact h1 h'
    · exact h2 h'

/-- The publish step when both of its calls succeed: the staging directory and the
destination are apart, the destination holds what the staging directory held, and the staging
directory is gone. -/
theorem syncPublish_ok (env : Env) (tmp dst : String) (w : World)
    (h : (GithubReleaseSync.syncPublish env tmp dst w).1 = none) :
    (¬ resolve env.cwd tmp <+: resolve env.cwd dst ∧
      ¬ resolve env.cwd dst <+: resolve env.cwd tmp) ∧
    (∀ r, (GithubReleaseSync.syncPublish env tmp dst w).2.fs (resolve env.cwd dst ++ r) =
      w.fs (resolve env.cwd tmp ++ r)) ∧
    (∀ q, resolve env.cwd tmp <+: q →
      (GithubReleaseSync.syncPublish env tmp dst w).2.fs q = none) := by
  rcases syncPublish_cases env tmp dst w with ⟨err, _, hP⟩ | ⟨_, err, _, hP⟩ | ⟨hrm, hrn, hP⟩
  · rw [hP] at h; simp at h
  · rw [hP] at h; simp at h
  · obtain ⟨hne, hsome, hcase⟩ := osRename_ok env tmp dst _ hrn
    have hgone := osRemoveAll_ok env dst w hne hrm
    rcases hcase with ⟨heq, _⟩ | ⟨hd1, hd2, hfs⟩
    · exfalso
      rw [hgone _ (by rw [heq])] at hsome
      simp at hsome
    · refine ⟨⟨hd1, hd2⟩, ?_, ?_⟩
      · intro r
        rw [hP]
        simp only
        rw [hfs, if_pos (List.prefix_append _ _), List.drop_left]
        exact osRemoveAll_fs env dst w _ (not_prefix_append_of_disjoint _ _ r hd1 hd2).1
      · intro q hq
        rw [hP]
        simp only
        rw [hfs]
        have hnot : ¬ resolve env.cwd dst <+: q := by
          intro hdq
          rcases prefix_comparable _ _ q hq hdq with h' | h'
          · exact hd1 h'
          · exact hd2 h'
        rw [if_neg hnot, if_pos hq]

/-- A path that `filepath.Clean` leaves as it is, is not empty: the empty path is cleaned to
a single dot. -/
theorem filepathClean_fixed_ne_empty (s : String) (h : filepathClean s = s) : s ≠ "" := by
  intro hs
  subst hs
  exact absurd h (by decide)

/-- **C1 (amended).** For a destination path as `filepath.Clean` leaves it, which neither
contains nor lies in the staging directory, and a release whose download paths lie inside
the staging directory (as they do for plain file names), a run of `Sync` ends in one of four
ways, whatever the network and the file system calls do. If it stops before the removal of
the destination, by an error or a panic, the destination is exactly as before. If the removal
of the destination fails, every entry of the destination is as before or gone. If the rename
fails, the destination is gone and is not replaced. If `Sync` returns no error, the
destination holds exactly what the staging directory held when the asset loop had passed
every asset. -/
theorem Sync_destination_outcomes (env : Env) (d : GithubReleaseSync) (dst : String)
    (w : World)
    (hclean : filepathClean dst = dst)
    (hdisj : ¬ resolve env.cwd (stagingPath env) <+: resolve env.cwd dst ∧
      ¬ resolve env.cwd dst <+: resolve env.cwd (stagingPath env))
    (hin : ∀ release, releaseOf env d w = .ok release → ∀ a ∈ release.Assets,
      resolve env.cwd (stagingPath env) <+:
        resolve env.cwd (filepathJoin [stagingPath env, a.Name])) :
    (stoppedBeforeRemoval (GithubReleaseSync.Sync env d dst w).1 = true →
      sameBelow (resolve env.cwd dst) w.fs (GithubReleaseSync.Sync env d dst w).2.fs) ∧
    (∀ lc p err,
      (GithubReleaseSync.Sync env d dst w).1 = .ret (lc, some (.deletingDir p err)) →
      ∀ q, resolve env.cwd dst <+: q →
        (GithubReleaseSync.Sync env d dst w).2.fs q = w.fs q ∨
          (GithubReleaseSync.Sync env d dst w).2.fs q = none) ∧
    (∀ lc p err,
      (GithubReleaseSync.Sync env d dst w).1 = .ret (lc, some (.movingDirectory p err)) →
      ∀ q, resolve env.cwd dst <+: q → (GithubReleaseSync.Sync env d dst w).2.fs q = none) ∧
    (∀ lc, (GithubReleaseSync.Sync env d dst w).1 = .ret (lc, none) →
      ∃ release m, releaseOf env d w = .ok release ∧
        GithubReleaseSync.syncChecksums env d release = .ok m ∧
        (staged env d w release m).1 = .ret none ∧
        ∀ r, (GithubReleaseSync.Sync env d dst w).2.fs (resolve env.cwd dst ++ r) =
          (staged env d w release m).2.fs (resolve env.cwd (stagingPath env) ++ r)) := by
  have hframe : stoppedBeforeRemoval (GithubReleaseSync.Sync env d dst w).1 = true →
      sameBelow (resolve env.cwd dst) w.fs (GithubReleaseSync.Sync env d dst w).2.fs := by
    intro h q hq
    obtain ⟨h1, h2⟩ := outside_of_below _ _ q hdisj.1 hdisj.2 hq
    exact Sync_fs_before env d dst w hin h q h1 h2
  refine ⟨hframe, ?_, ?_, ?_⟩
  · intro lc p err hout q hq
    obtain ⟨release, m, _, hrel, _, _, hS⟩ := Sync_reaches_publish env d dst w
      (by rw [hout]; rfl)
    obtain ⟨h1, h2⟩ := outside_of_below _ _ q hdisj.1 hdisj.2 hq
    have hst := staged_fs_outside env d w release m (hin release hrel) q h1 h2
    rw [hS] at hout ⊢
    simp only at hout ⊢
    rw [osRemoveAll_fs env _ _ q h1]
    rcases syncPublish_cases env (stagingPath env) dst (staged env d w release m).2
      with ⟨e, _, hP⟩ | ⟨_, e, _, hP⟩ | ⟨_, _, hP⟩
    · rw [hP]
      simp only
      rw [← hst]
      exact osRemoveAll_shrinks env dst _ q
    · rw [hP] at hout; simp at hout
    · rw [hP] at hout; simp at hout
  · intro lc p err hout
    obtain ⟨release, m, _, hrel, _, _, hS⟩ := Sync_reaches_publish env d dst w
      (by rw [hout]; rfl)
    rw [hS] at hout ⊢
    simp only at hout ⊢
    rcases syncPublish_cases env (stagingPath env) dst (staged env d w release m).2
      with ⟨e, _, hP⟩ | ⟨hrm, e, hrn, hP⟩ | ⟨_, _, hP⟩
    · rw [hP] at hout; simp at hout
    · rw [hP]
      simp only
      have hsame := osRename_err env (stagingPath env) dst
        (osRemoveAll env dst (staged env d w release m).2).2 (by rw [hrn]; simp)
      have hdst : dst ≠ "" := filepathClean_fixed_ne_empty dst hclean
      intro q hq
      obtain ⟨h1, h2⟩ := outside_of_below _ _ q hdisj.1 hdisj.2 hq
      rw [osRemoveAll_fs env _ _ q h1, hsame]
      exact osRemoveAll_ok env dst _ hdst hrm q hq
    · rw [hP] at hout; simp at hout
  · intro lc hout
    obtain ⟨release, m, _, hrel, hm, hok, hS⟩ := Sync_reaches_publish env d dst w
      (by rw [hout]; rfl)
    refine ⟨release, m, hrel, hm, hok, ?_⟩
    intro r
    rw [hS] at hout ⊢
    simp only at hout ⊢
    have hpub : (GithubReleaseSync.syncPublish env (stagingPath env) dst
        (staged env d w release m).2).1 = none := by
      simp at hout
      exact hout.2
    obtain ⟨_, hcopy, _⟩ := syncPublish_ok env _ dst _ hpub
    rw [osRemoveAll_fs env _ _ _ (not_prefix_append_of_disjoint _ _ r hdisj.1 hdisj.2).2]
    exact hcopy r

theorem stagingDir_ne_nil (env : Env) : resolve env.cwd (stagingPath env) ≠ [] := by
  rw [resolve_stagingPath]; simp

theorem staged_dir (env : Env) (d : GithubReleaseSync) (w : World)
    (release : GithubReleaseAPI) (m : List (String × String))
    (hmk : (osMkdirAll env (stagingPath env) w).1 = none)
    (hne : ∀ a ∈ release.Assets,
      resolve env.cwd (filepathJoin [stagingPath env, a.Name]) ≠
        resolve env.cwd (stagingPath env)) :
    (staged env d w release m).2.fs (resolve env.cwd (stagingPath env)) = some Node.dir := by
  unfold staged
  rw [syncAssets_fs]
  · unfold loopStart
    rw [downloadRelease_fs]
    have := osMkdirAll_ok env (stagingPath env) w hmk
    simpa [nodeAt, stagingDir_ne_nil env] using this
  · intro a ha e
    exact hne a ha e.symm

theorem staged_other (env : Env) (d : GithubReleaseSync) (w : World)
    (release : GithubReleaseAPI) (m : List (String × String)) (r : Path) (hr : r ≠ [])
    (hother : ∀ a ∈ release.Assets,
      resolve env.cwd (filepathJoin [stagingPath env, a.Name]) ≠
        resolve env.cwd (stagingPath env) ++ r) :
    (staged env d w release m).2.fs (resolve env.cwd (stagingPath env) ++ r) =
      w.fs (resolve env.cwd (stagingPath env) ++ r) := by
  unfold staged
  rw [syncAssets_fs]
  · apply loopStart_fs
    intro h
    have := h.length_le
    simp at this
    exact hr this
  · intro a ha e
    exact hother a ha e.symm

/-- **C3 (amended).** For a release whose download paths are pairwise distinct and lie
strictly inside the staging directory (as they are for unique plain file names, where the
path of an asset is the entry of its name in the staging directory): if `Sync` returns
without error then the asset loop had passed every asset before the destination was
replaced, so that in the staged snapshot each asset's file has a byte count equal to its
declared size and, when checksum validation is enabled, a lower-case hex SHA-256 digest equal
to the checksum-map entry for its name; the destination then holds exactly the staged
snapshot (a directory with each asset's file at its place, and besides them only what the
staging directory held before the run), and the staging directory no longer exists. -/
theorem Sync_success_publishes_validated_assets (env : Env) (d : GithubReleaseSync)
    (dst : String) (w : World) (lc : LockConfigContentsGithubRelease)
    (release : GithubReleaseAPI)
    (hok : (GithubReleaseSync.Sync env d dst w).1 = .ret (lc, none))
    (hrel : releaseOf env d w = .ok release)
    (hin : ∀ a ∈ release.Assets,
      resolve env.cwd (stagingPath env) <+:
          resolve env.cwd (filepathJoin [stagingPath env, a.Name]) ∧
        resolve env.cwd (filepathJoin [stagingPath env, a.Name]) ≠
          resolve env.cwd (stagingPath env))
    (hdistinct : (release.Assets.map
      (fun a => resolve env.cwd (filepathJoin [stagingPath env, a.Name]))).Nodup) :
    ∃ m, GithubReleaseSync.syncChecksums env d release = .ok m ∧
      lc.URL = release.URL ∧
      (staged env d w release m).1 = .ret none ∧
      (∀ a ∈ release.Assets, ∃ content,
        (staged env d w release m).2.fs
            (resolve env.cwd (filepathJoin [stagingPath env, a.Name])) =
          some (Node.file content) ∧
        (GithubReleaseSync.Sync env d dst w).2.fs
            (resolve env.cwd dst ++
              (resolve env.cwd (filepathJoin [stagingPath env, a.Name])).drop
                (resolve env.cwd (stagingPath env)).length) =
          some (Node.file content) ∧
        (content.length : Int) = a.Size ∧
        (d.opts.DisableChecksumValidation = false →
          hexLower (sha256Sum content) = mapGet m a.Name)) ∧
      (∀ r, (GithubReleaseSync.Sync env d dst w).2.fs (resolve env.cwd dst ++ r) =
        (staged env d w release m).2.fs (resolve env.cwd (stagingPath env) ++ r)) ∧
      (GithubReleaseSync.Sync env d dst w).2.fs (resolve env.cwd dst) = some Node.dir ∧
      (∀ r, r ≠ [] →
        (∀ a ∈ release.Assets,
          resolve env.cwd (filepathJoin [stagingPath env, a.Name]) ≠
            resolve env.cwd (stagingPath env) ++ r) →
        (GithubReleaseSync.Sync env d dst w).2.fs (resolve env.cwd dst ++ r) =
          w.fs (resolve env.cwd (stagingPath env) ++ r)) ∧
      (∀ q, resolve env.cwd (stagingPath env) <+: q →
        (GithubReleaseSync.Sync env d dst w).2.fs q = none) ∧
      (∀ a ∈ release.Assets, plainName a.Name →
        resolve env.cwd (filepathJoin [stagingPath env, a.Name]) =
          resolve env.cwd (stagingPath env) ++ [a.Name]) := by
  obtain ⟨release', m, hmk, hrel', hm, hst, hS⟩ := Sync_reaches_publish env d dst w
    (by rw [hok]; rfl)
  rw [hrel] at hrel'
  simp at hrel'
  subst hrel'
  have hout := hok
  rw [hS] at hout
  simp at hout
  obtain ⟨hdisj, hcopy, hgone⟩ := syncPublish_ok env _ dst _ hout.2
  have hdst : ∀ r, (GithubReleaseSync.Sync env d dst w).2.fs (resolve env.cwd dst ++ r) =
      (staged env d w release m).2.fs (resolve env.cwd (stagingPath env) ++ r) := by
    intro r
    rw [hS]
    simp only
    rw [osRemoveAll_fs env _ _ _ (not_prefix_append_of_disjoint _ _ r hdisj.1 hdisj.2).2]
    exact hcopy r
  have hassets := syncAssets_ok env d m (stagingPath env) release.Assets (loopStart env d w)
    (fun a ha e => by
      have h1 := (hin a ha).1
      rw [e] at h1
      exact stagingDir_ne_nil env (List.prefix_nil.1 h1))
    hdistinct hst
  refine ⟨m, hm, hout.1.symm ▸ rfl, hst, ?_, hdst, ?_, ?_, ?_, ?_⟩
  · intro a ha
    obtain ⟨content, hfile, hrest⟩ := hassets a ha
    refine ⟨content, hfile, ?_, hrest⟩
    rw [hdst]
    have hp := (hin a ha).1
    obtain ⟨t, ht⟩ := hp
    have hdrop : (resolve env.cwd (filepathJoin [stagingPath env, a.Name])).drop
        (resolve env.cwd (stagingPath env)).length = t := by
      rw [← ht, List.drop_left]
    rw [hdrop, ht]
    exact hfile
  · have := hdst []
    simp only [List.append_nil] at this
    rw [this]
    exact staged_dir env d w release m hmk (fun a ha => (hin a ha).2)
  · intro r hr hother
    rw [hdst]
    exact staged_other env d w release m r hr hother
  · intro q hq
    rw [hS]
    simp only
    rcases osRemoveAll_shrinks env (stagingPath env)
      (GithubReleaseSync.syncPublish env (stagingPath env) dst
        (staged env d w release m).2).2 q with h | h
    · rw [h]; exact hgone q hq
    · exact h
  · intro a _ hp
    exact asset_path_plain env (stagingPath env) a hp

/-! ## The checks on one file -/

theorem string_length_eq_zero (s : String) : s.length = 0 ↔ s = "" := by
  constructor
  · intro h
    cases s with
    | mk data =>
      have hd : data = [] := List.length_eq_zero.1 h
      subst hd
      rfl
  · intro h
    subst h
    rfl

/-- The checksum check on a file that can be opened and read, for a non-empty expected
checksum. -/
theorem checkFileChecksum_readable (env : Env) (path expected : String) (w : World)
    (content : Bytes) (hne : expected ≠ "") (hpath : path ≠ "")
    (hopen : env.fault w.clock = none) (hread : env.fault (w.clock + 1) = none)
    (hfile : nodeAt w.fs (resolve env.cwd path) = some (Node.file content)) :
    ((GithubReleaseSync.checkFileChecksum env path expected w).1 = .ret none ↔
      expected = hexLower (sha256Sum content)) ∧
    (expected ≠ hexLower (sha256Sum content) →
      (GithubReleaseSync.checkFileChecksum env path expected w).1 =
        .ret (some ("Expected file checksum to be '" ++ expected ++ "', but was '" ++
          hexLower (sha256Sum content) ++ "'"))) := by
  have hlen : ¬ expected.length = 0 := fun h => hne ((string_length_eq_zero _).1 h)
  by_cases heq : expected = hexLower (sha256Sum content)
  · refine ⟨⟨fun _ => heq, fun _ => ?_⟩, fun h => absurd heq h⟩
    unfold GithubReleaseSync.checkFileChecksum osOpen readAllOpened
    simp [hlen, hpath, hopen, hfile, World.tick, hread, heq.symm]
  · have hne' : ¬ hexLower (sha256Sum content) = expected := fun h => heq h.symm
    have hres : (GithubReleaseSync.checkFileChecksum env path expected w).1 =
        .ret (some ("Expected file checksum to be '" ++ expected ++ "', but was '" ++
          hexLower (sha256Sum content) ++ "'")) := by
      unfold GithubReleaseSync.checkFileChecksum osOpen readAllOpened
      simp [hlen, hpath, hopen, hfile, World.tick, hread, hne']
    refine ⟨⟨fun h => ?_, fun h => absurd h heq⟩, fun _ => hres⟩
    rw [hres] at h
    simp at h

/-- **C5 (amended).** For every file that can be opened and read and every non-empty expected
checksum string, `checkFileChecksum` succeeds if and only if the expected string is exactly
the lower-case hex SHA-256 digest of the file's bytes; any other string, an upper-case
spelling of the digest included, gives the error naming the expected and the actual
checksum. -/
theorem checkFileChecksum_ok_iff_exact_digest (env : Env) (path expected : String) (w : World)
    (content : Bytes) (hne : expected ≠ "") (hpath : path ≠ "")
    (hopen : env.fault w.clock = none) (hread : env.fault (w.clock + 1) = none)
    (hfile : nodeAt w.fs (resolve env.cwd path) = some (Node.file content)) :
    ((GithubReleaseSync.checkFileChecksum env path expected w).1 = .ret none ↔
      expected = hexLower (sha256Sum content)) ∧
    (expected ≠ hexLower (sha256Sum content) →
      (GithubReleaseSync.checkFileChecksum env path expected w).1 =
        .ret (some ("Expected file checksum to be '" ++ expected ++ "', but was '" ++
          hexLower (sha256Sum content) ++ "'"))) :=
  checkFileChecksum_readable env path expected w content hne hpath hopen hread hfile

theorem syncAsset_panic (env : Env) (d : GithubReleaseSync) (m : List (String × String))
    (tmp : String) (a : GithubReleaseAssetAPI) (w : World) (msg : String)
    (h : (GithubReleaseSync.syncAsset env d m tmp a w).1 = .panic msg) :
    msg = "Expected non-empty checksum as argument" ∧
      d.opts.DisableChecksumValidation = false ∧ mapGet m a.Name = "" := by
  unfold GithubReleaseSync.syncAsset at h
  simp only at h
  split at h
  · simp at h
  · split at h
    · simp at h
    · split at h
      · rename_i hdis
        split at h
        · rename_i msg' w3 hc
          simp at h
          subst h
          unfold GithubReleaseSync.checkFileChecksum at hc
          split at hc
          · rename_i hlen
            simp at hc
            exact ⟨hc.1.symm, by simpa using hdis, (string_length_eq_zero _).1 hlen⟩
          · repeat' split at hc
            all_goals first
              | (simp at hc; done)
              | (simp only at hc; split at hc <;> simp at hc)
        · simp at h
        · simp at h
      · simp at h

theorem syncAssets_panic (env : Env) (d : GithubReleaseSync) (m : List (String × String))
    (tmp : String) (assets : List GithubReleaseAssetAPI) (w : World) (msg : String)
    (h : (GithubReleaseSync.syncAssets env d m tmp assets w).1 = .panic msg) :
    msg = "Expected non-empty checksum as argument" ∧
      d.opts.DisableChecksumValidation = false ∧ ∃ a ∈ assets, mapGet m a.Name = "" := by
  induction assets generalizing w with
  | nil => simp [GithubReleaseSync.syncAssets] at h
  | cons a rest ih =>
    by_cases ha : (GithubReleaseSync.syncAsset env d m tmp a w).1 = .ret none
    · rw [syncAssets_cons_ok _ _ _ _ _ _ _ ha] at h
      obtain ⟨h1, h2, b, hb, h3⟩ := ih _ h
      exact ⟨h1, h2, b, by simp [hb], h3⟩
    · rw [syncAssets_cons_stop _ _ _ _ _ _ _ ha] at h
      obtain ⟨h1, h2, h3⟩ := syncAsset_panic _ _ _ _ _ _ _ h
      exact ⟨h1, h2, a, by simp, h3⟩

/-- **C4 (amended).** With checksum validation enabled, an asset whose name has no entry in
the checksum map (or an empty one) makes the checksum check panic with "Expected non-empty
checksum as argument": `checkFileChecksum` panics on an empty expected checksum whatever the
file is; the loop body panics once the asset is downloaded and its size check has passed; and
`Sync` panics with the loop instead of returning an error. A panic of `Sync` has no other
origin. For a non-empty expected checksum that differs from the digest of a readable file
the check returns an error. -/
theorem checkFileChecksum_missing_panics :
    (∀ (env : Env) (path : String) (w : World),
      GithubReleaseSync.checkFileChecksum env path "" w =
        (.panic "Expected non-empty checksum as argument", w)) ∧
    (∀ (env : Env) (d : GithubReleaseSync) (m : List (String × String)) (tmp : String)
      (a : GithubReleaseAssetAPI) (w : World),
      d.opts.DisableChecksumValidation = false → mapGet m a.Name = "" →
      (GithubReleaseSync.downloadFile env a.BrowserDownloadURL
        (filepathJoin [tmp, a.Name]) w).1 = none →
      (GithubReleaseSync.checkFileSize env (filepathJoin [tmp, a.Name]) a.Size
        (GithubReleaseSync.downloadFile env a.BrowserDownloadURL
          (filepathJoin [tmp, a.Name]) w).2).1 = none →
      (GithubReleaseSync.syncAsset env d m tmp a w).1 =
        .panic "Expected non-empty checksum as argument") ∧
    (∀ (env : Env) (d : GithubReleaseSync) (dst : String) (w : World)
      (release : GithubReleaseAPI) (m : List (String × String)) (msg : String),
      (osMkdirAll env (stagingPath env) w).1 = none → releaseOf env d w = .ok release →
      GithubReleaseSync.syncChecksums env d release = .ok m →
      (staged env d w release m).1 = .panic msg →
      (GithubReleaseSync.Sync env d dst w).1 = .panic msg) ∧
    (∀ (env : Env) (d : GithubReleaseSync) (dst : String) (w : World) (msg : String),
      (GithubReleaseSync.Sync env d dst w).1 = .panic msg →
      msg = "Expected non-empty checksum as argument" ∧
        d.opts.DisableChecksumValidation = false ∧
        ∃ release m, releaseOf env d w = .ok release ∧
          GithubReleaseSync.syncChecksums env d release = .ok m ∧
          ∃ a ∈ release.Assets, mapGet m a.Name = "") ∧
    (∀ (env : Env) (path expected : String) (w : World) (content : Bytes),
      expected ≠ "" → path ≠ "" → env.fault w.clock = none →
      env.fault (w.clock + 1) = none →
      nodeAt w.fs (resolve env.cwd path) = some (Node.file content) →
      expected ≠ hexLower (sha256Sum content) →
      (GithubReleaseSync.checkFileChecksum env path expected w).1 =
        .ret (some ("Expected file checksum to be '" ++ expected ++ "', but was '" ++
          hexLower (sha256Sum content) ++ "'"))) := by
  refine ⟨?_, ?_, ?_, ?_, ?_⟩
  · intro env path w
    simp [GithubReleaseSync.checkFileChecksum]
  · intro env d m tmp a w hdis hmap hdl hsize
    unfold GithubReleaseSync.syncAsset
    simp only
    cases hd : GithubReleaseSync.downloadFile env a.BrowserDownloadURL
        (filepathJoin [tmp, a.Name]) w with
    | mk r w1 =>
      rw [hd] at hdl hsize
      simp only at hdl hsize
      subst hdl
      simp only
      cases hs : GithubReleaseSync.checkFileSize env (filepathJoin [tmp, a.Name]) a.Size w1 with
      | mk r2 w2 =>
        rw [hs] at hsize
        simp only at hsize
        subst hsize
        simp [hdis, hmap, GithubReleaseSync.checkFileChecksum]
  · intro env d dst w release m msg hmk hrel hm hloop
    exact Sync_of_loop_panic env d dst w release m msg hmk hrel hm hloop
  · intro env d dst w msg h
    rcases Sync_cases env d dst w with ⟨e, _, hS⟩ | ⟨_, hS⟩
    · rw [hS] at h; simp at h
    · rw [hS] at h
      simp only at h
      rcases syncBody_cases env d (stagingPath env) dst (osMkdirAll env (stagingPath env) w).2
        with ⟨e, _, hB⟩ | ⟨release, hrel, ⟨e, _, hB⟩ | ⟨m, hm, hcase⟩⟩
      · rw [hB] at h; simp at h
      · rw [hB] at h; simp at h
      · rcases hcase with ⟨msg', hp, hB⟩ | ⟨e, _, hB⟩ | ⟨_, hB⟩
        · rw [hB] at h
          simp at h
          subst h
          obtain ⟨h1, h2, a, ha, h3⟩ := syncAssets_panic _ _ _ _ _ _ _ hp
          exact ⟨h1, h2, release, m, hrel, hm, a, ha, h3⟩
        · rw [hB] at h; simp at h
        · rw [hB] at h; simp at h
  · intro env path expected w content hne hpath hopen hread hfile hdiff
    exact (checkFileChecksum_readable env path expected w content hne hpath hopen hread hfile).2
      hdiff

/-! ## Where the assets are written -/

/-- **C7 (amended).** For every asset name that never climbs above the directory it is
joined to (each `..` element has an element before it to remove; so in particular for every
plain file name, one that is not empty, holds no slash and is neither `.` nor `..`), the
path `Sync` downloads the asset to, the staging path joined with the asset name, lies inside
the staging directory, and for a plain name it is the entry of that name there; so, for a
release of such names, the asset loop changes nothing outside the staging directory, and the
run up to the publish step nothing outside it but the directories leading to it. -/
theorem asset_paths_in_staging (env : Env) (d : GithubReleaseSync) (w : World)
    (release : GithubReleaseAPI) (m : List (String × String))
    (hbelow : ∀ a ∈ release.Assets, staysBelow a.Name = true) :
    (∀ a ∈ release.Assets,
      resolve env.cwd (stagingPath env) <+:
        resolve env.cwd (filepathJoin [stagingPath env, a.Name])) ∧
    (∀ n : String, plainName n →
      staysBelow n = true ∧
        resolve env.cwd (filepathJoin [stagingPath env, n]) =
          resolve env.cwd (stagingPath env) ++ [n]) ∧
    (∀ q, ¬ resolve env.cwd (stagingPath env) <+: q →
      (staged env d w release m).2.fs q = (loopStart env d w).fs q) ∧
    (∀ q, ¬ resolve env.cwd (stagingPath env) <+: q →
      ¬ q <+: resolve env.cwd (stagingPath env) →
      (staged env d w release m).2.fs q = w.fs q) := by
  have hin : ∀ a ∈ release.Assets,
      resolve env.cwd (stagingPath env) <+:
        resolve env.cwd (filepathJoin [stagingPath env, a.Name]) := fun a ha =>
    resolve_filepathJoin_below env.cwd (stagingPath env) a.Name (stagingPath_ne_empty env)
      (hbelow a ha)
  refine ⟨hin, ?_, ?_, ?_⟩
  · intro n hn
    exact ⟨plainName_staysBelow n hn, resolve_filepathJoin env.cwd (stagingPath env) n hn⟩
  · intro q hq
    exact syncAssets_fs_outside env d m _ _ _ hin q hq
  · intro q hq1 hq2
    exact staged_fs_outside env d w release m hin q hq1 hq2

/-! ## Concrete runs -/

theorem sha256_empty :
    hexLower (sha256Sum []) =
      "e3b0c44298fc1c149afbf4c8996fb92427ae41e4649b934ca495991b7852b855" := by
  decide

theorem sha256_abc :
    hexLower (sha256Sum [97, 98, 99]) =
      "ba7816bf8f01cfea414140de5dae2223b00361a396177a9cb410ff61f20015ad" := by
  decide

/-- **C1, counterexample.** The removal of the destination succeeds and the rename that
follows fails: `Sync` returns the rename error, the destination, which held `old.txt`, is
gone and not replaced, and the staged file is gone with the staging directory. -/
theorem Sync_rename_failure_loses_destination :
    (syncUnchecked.Sync (exampleEnv releaseOne (some 7)) "vendor/rel" exampleWorld).1 =
        .ret ({ URL := exampleURL },
          some (.movingDirectory ".vendir-tmp/incoming/github-release" "permission denied")) ∧
      exampleWorld.fs ["work", "vendor", "rel"] = some Node.dir ∧
      exampleWorld.fs ["work", "vendor", "rel", "old.txt"] = some (Node.file [1]) ∧
      (syncUnchecked.Sync (exampleEnv releaseOne (some 7)) "vendor/rel" exampleWorld).2.fs
        ["work", "vendor", "rel"] = none ∧
      (syncUnchecked.Sync (exampleEnv releaseOne (some 7)) "vendor/rel" exampleWorld).2.fs
        ["work", "vendor", "rel", "old.txt"] = none ∧
      (syncUnchecked.Sync (exampleEnv releaseOne (some 7)) "vendor/rel" exampleWorld).2.fs
        ["work", "vendor", "rel", "a.yml"] = none ∧
      (syncUnchecked.Sync (exampleEnv releaseOne (some 7)) "vendor/rel" exampleWorld).2.fs
        ["work", ".vendir-tmp", "incoming", "github-release", "a.yml"] = none ∧
      ¬ sameBelow ["work", "vendor", "rel"] exampleWorld.fs
        (syncUnchecked.Sync (exampleEnv releaseOne (some 7)) "vendor/rel" exampleWorld).2.fs := by
  refine ⟨by decide, by decide, by decide, by decide, by decide, by decide, by decide, ?_⟩
  intro h
  have := h ["work", "vendor", "rel"] (List.prefix_refl _)
  revert this
  decide

/-- An asset name that climbs from the staging directory into the destination: the download
overwrites `old.txt` in the destination, the size check then fails, and `Sync` returns the
size error with the destination modified. -/
theorem Sync_size_failure_after_climbing_name :
    (syncUnchecked.Sync (exampleEnv releaseClimbing none) "vendor/rel" exampleWorld).1 =
        .ret ({ URL := exampleURL },
          some (.checkingSize "../../../vendor/rel/old.txt"
            "Expected file size to be 5, but was 2")) ∧
      filepathJoin [stagingPath (exampleEnv releaseClimbing none),
        "../../../vendor/rel/old.txt"] = "vendor/rel/old.txt" ∧
      exampleWorld.fs ["work", "vendor", "rel", "old.txt"] = some (Node.file [1]) ∧
      (syncUnchecked.Sync (exampleEnv releaseClimbing none) "vendor/rel" exampleWorld).2.fs
        ["work", "vendor", "rel", "old.txt"] = some (Node.file [1, 2]) ∧
      ¬ sameBelow ["work", "vendor", "rel"] exampleWorld.fs
        (syncUnchecked.Sync (exampleEnv releaseClimbing none) "vendor/rel"
          exampleWorld).2.fs := by
  refine ⟨by decide, by decide, by decide, by decide, ?_⟩
  intro h
  have := h ["work", "vendor", "rel", "old.txt"] (by decide)
  revert this
  decide

/-- **C3, counterexample.** Two assets with the distinct names `a.yml` and `./a.yml`, declared with one and
two bytes, are written to the same file: `Sync` returns without error, and the file of the
asset `a.yml` in the destination has two bytes, not the one byte declared for it. -/
theorem Sync_success_with_aliased_names :
    (releaseAliased.Assets.map (fun a => a.Name)).Nodup ∧
      (syncUnchecked.Sync (exampleEnv releaseAliased none) "vendor/rel" exampleWorld).1 =
        .ret ({ URL := exampleURL }, none) ∧
      releaseAliased.Assets.map (fun a => (a.Name, a.Size)) = [("a.yml", 1), ("./a.yml", 2)] ∧
      (syncUnchecked.Sync (exampleEnv releaseAliased none) "vendor/rel" exampleWorld).2.fs
        ["work", "vendor", "rel", "a.yml"] = some (Node.file [1, 2]) := by
  refine ⟨by decide, by decide, by decide, by decide⟩

/-- **C4, counterexample.** Checksum validation is enabled and the release notes hold an
empty checksum block, so the asset `a.yml` has no entry in the checksum map: `Sync` does not
return an error, it panics, as `checkFileChecksum` does on an empty expected checksum. -/
theorem Sync_panics_on_missing_checksum :
    ReleaseNotesChecksums.Find releaseOne.AssetNames releaseOne.Body = .ok [] ∧
      (syncChecked.Sync (exampleEnv releaseOne none) "vendor/rel" exampleWorld).1 =
        .panic "Expected non-empty checksum as argument" ∧
      (GithubReleaseSync.checkFileChecksum (exampleEnv releaseOne none) "f" ""
        { fs := emptyFileFS, clock := 0 }).1 =
        .panic "Expected non-empty checksum as argument" := by
  refine ⟨by rfl, by decide, by decide⟩

/-- **C5, counterexample.** The expected checksum is the digest of the empty file written
with upper-case hex letters: equal to the digest when case is ignored, and rejected. -/
theorem checkFileChecksum_rejects_upper_case :
    String.mk (emptyDigestUpper.data.map Char.toLower) = hexLower (sha256Sum []) ∧
      (GithubReleaseSync.checkFileChecksum (exampleEnv releaseOne none) "f" emptyDigestUpper
        { fs := emptyFileFS, clock := 0 }).1 =
        .ret (some ("Expected file checksum to be " ++
          "'E3B0C44298FC1C149AFBF4C8996FB92427AE41E4649B934CA495991B7852B855', but was " ++
          "'e3b0c44298fc1c149afbf4c8996fb92427ae41e4649b934ca495991b7852b855'")) := by
  refine ⟨by decide, by decide⟩

/-- **C6.** The asset URL answers with status 404 and the body `Not Found`: `downloadFile`
returns no error and writes that body to the asset's file, where `downloadRelease` returns
an error for the same answer; with a declared size of nine bytes and checksum validation
disabled, `Sync` returns without error and publishes the error page as the asset. -/
theorem downloadFile_accepts_error_status :
    exampleHttpGet "https://example.org/missing" =
        .ok { StatusCode := 404, Body := notFoundBody, BodyErr := none } ∧
      (GithubReleaseSync.downloadFile (exampleEnv releaseMissing none)
        "https://example.org/missing" "vendor/rel/a.yml" exampleWorld).1 = none ∧
      (GithubReleaseSync.downloadFile (exampleEnv releaseMissing none)
        "https://example.org/missing" "vendor/rel/a.yml" exampleWorld).2.fs
          ["work", "vendor", "rel", "a.yml"] = some (Node.file notFoundBody) ∧
      (GithubReleaseSync.downloadRelease
        { exampleEnv releaseMissing none with
          httpGet := fun _ _ => exampleHttpGet "https://example.org/missing" }
        syncUnchecked exampleWorld).1 =
          .error "Expected response status 200, but was '404'" ∧
      (syncUnchecked.Sync (exampleEnv releaseMissing none) "vendor/rel" exampleWorld).1 =
        .ret ({ URL := exampleURL }, none) ∧
      (syncUnchecked.Sync (exampleEnv releaseMissing none) "vendor/rel" exampleWorld).2.fs
        ["work", "vendor", "rel", "a.yml"] = some (Node.file notFoundBody) := by
  refine ⟨by rfl, by decide, by decide, by rfl, by decide, by decide⟩

/-- **C7, counterexample.** For the asset name `../evil.yml` the download path is
`.vendir-tmp/incoming/evil.yml`, outside the staging directory
`.vendir-tmp/incoming/github-release`; the file written there is still in place when `Sync`
has returned, and it is not in the destination. -/
theorem asset_path_escapes_staging :
    filepathJoin [stagingPath (exampleEnv releaseEscaping none), "../evil.yml"] =
        ".vendir-tmp/incoming/evil.yml" ∧
      resolve ["work"] (stagingPath (exampleEnv releaseEscaping none)) =
        ["work", ".vendir-tmp", "incoming", "github-release"] ∧
      resolve ["work"]
        (filepathJoin [stagingPath (exampleEnv releaseEscaping none), "../evil.yml"]) =
        ["work", ".vendir-tmp", "incoming", "evil.yml"] ∧
      ¬ resolve ["work"] (stagingPath (exampleEnv releaseEscaping none)) <+:
        resolve ["work"]
          (filepathJoin [stagingPath (exampleEnv releaseEscaping none), "../evil.yml"]) ∧
      exampleWorld.fs ["work", ".vendir-tmp", "incoming", "evil.yml"] = none ∧
      (syncUnchecked.Sync (exampleEnv releaseEscaping none) "vendor/rel" exampleWorld).1 =
        .ret ({ URL := exampleURL }, none) ∧
      (syncUnchecked.Sync (exampleEnv releaseEscaping none) "vendor/rel" exampleWorld).2.fs
        ["work", ".vendir-tmp", "incoming", "evil.yml"] = some (Node.file [1, 2, 3]) ∧
      (syncUnchecked.Sync (exampleEnv releaseEscaping none) "vendor/rel" exampleWorld).2.fs
        ["work", "vendor", "rel", "evil.yml"] = none := by
  refine ⟨by decide, by decide, by decide, by decide, by decide, by decide, by decide,
    by decide⟩

/-- **C2, counterexample.** Checksum validation is enabled and the release notes hold a
checksum for `a.yml` only: `a.yml` passes its checks, and at the checksum check of `b.yml`,
a step before the removal of the destination, `Sync` does not return an error: it panics. The
destination is as before. -/
theorem Sync_panics_at_checksum_step :
    ReleaseNotesChecksums.Find releaseHalfChecked.AssetNames releaseHalfChecked.Body =
        .ok [("a.yml", "039058c6f2c0cb492c533b0a4d14ef77cc0f78abccced5287d84a1a2011cfb81")] ∧
      (syncChecked.Sync (exampleEnv releaseHalfChecked none) "vendor/rel" exampleWorld).1 =
        .panic "Expected non-empty checksum as argument" ∧
      stoppedBeforeRemoval
        (syncChecked.Sync (exampleEnv releaseHalfChecked none) "vendor/rel" exampleWorld).1 =
          true ∧
      (syncChecked.Sync (exampleEnv releaseHalfChecked none) "vendor/rel" exampleWorld).2.fs
        ["work", "vendor", "rel", "old.txt"] = some (Node.file [1]) ∧
      (syncChecked.Sync (exampleEnv releaseHalfChecked none) "vendor/rel" exampleWorld).2.fs
        ["work", "vendor", "rel", "a.yml"] = none := by
  refine ⟨by rfl, by decide, by decide, by decide, by decide⟩

/-! ## The theorems applied to concrete runs -/

theorem Sync_destination_outcomes_witness :
    filepathClean "vendor/rel" = "vendor/rel" ∧
    (¬ resolve (exampleEnv releaseOne (some 7)).cwd (stagingPath (exampleEnv releaseOne (some 7)))
        <+: resolve (exampleEnv releaseOne (some 7)).cwd "vendor/rel" ∧
      ¬ resolve (exampleEnv releaseOne (some 7)).cwd "vendor/rel" <+:
        resolve (exampleEnv releaseOne (some 7)).cwd
          (stagingPath (exampleEnv releaseOne (some 7)))) ∧
    (syncUnchecked.Sync (exampleEnv releaseOne (some 7)) "vendor/rel" exampleWorld).1 =
      .ret ({ URL := exampleURL }, some (.movingDirectory
        ".vendir-tmp/incoming/github-release" "permission denied")) ∧
    ((syncUnchecked.Sync (exampleEnv releaseOne (some 7)) "vendor/rel" exampleWorld).2.fs
        (resolve (exampleEnv releaseOne (some 7)).cwd "vendor/rel") = none ∧
      (syncUnchecked.Sync (exampleEnv releaseOne (some 7)) "vendor/rel" exampleWorld).2.fs
        (resolve (exampleEnv releaseOne (some 7)).cwd "vendor/rel" ++ ["old.txt"]) = none) := by
  have hin : ∀ release,
      releaseOf (exampleEnv releaseOne (some 7)) syncUnchecked exampleWorld = .ok release →
      ∀ a ∈ release.Assets,
        resolve (exampleEnv releaseOne (some 7)).cwd (stagingPath (exampleEnv releaseOne (some 7))) <+:
          resolve (exampleEnv releaseOne (some 7)).cwd
            (filepathJoin [stagingPath (exampleEnv releaseOne (some 7)), a.Name]) := by
    have hr : releaseOf (exampleEnv releaseOne (some 7)) syncUnchecked exampleWorld =
        .ok releaseOne := by rfl
    intro release h
    rw [hr] at h
    cases h
    decide
  have hgone := (Sync_destination_outcomes (exampleEnv releaseOne (some 7)) syncUnchecked
    "vendor/rel" exampleWorld (by decide) (by decide) hin).2.2.1 { URL := exampleURL }
    ".vendir-tmp/incoming/github-release" "permission denied" (by decide)
  exact ⟨by decide, by decide, by decide,
    hgone _ (List.prefix_refl _), hgone _ (List.prefix_append _ _)⟩

theorem Sync_early_failure_keeps_destination_witness :
    (¬ resolve (exampleEnv releaseShort none).cwd (stagingPath (exampleEnv releaseShort none))
        <+: resolve (exampleEnv releaseShort none).cwd "vendor/rel" ∧
      ¬ resolve (exampleEnv releaseShort none).cwd "vendor/rel" <+:
        resolve (exampleEnv releaseShort none).cwd
          (stagingPath (exampleEnv releaseShort none))) ∧
    (syncUnchecked.Sync (exampleEnv releaseShort none) "vendor/rel" exampleWorld).1 =
      .ret ({ URL := exampleURL },
        some (.checkingSize "a.yml" "Expected file size to be 5, but was 2")) ∧
    sameBelow (resolve (exampleEnv releaseShort none).cwd "vendor/rel") exampleWorld.fs
      (syncUnchecked.Sync (exampleEnv releaseShort none) "vendor/rel" exampleWorld).2.fs := by
  have hin : ∀ release,
      releaseOf (exampleEnv releaseShort none) syncUnchecked exampleWorld = .ok release →
      ∀ a ∈ release.Assets,
        resolve (exampleEnv releaseShort none).cwd (stagingPath (exampleEnv releaseShort none)) <+:
          resolve (exampleEnv releaseShort none).cwd
            (filepathJoin [stagingPath (exampleEnv releaseShort none), a.Name]) := by
    have hr : releaseOf (exampleEnv releaseShort none) syncUnchecked exampleWorld =
        .ok releaseShort := by rfl
    intro release h
    rw [hr] at h
    cases h
    decide
  exact ⟨by decide, by decide,
    (Sync_early_failure_keeps_destination (exampleEnv releaseShort none) syncUnchecked
      "vendor/rel" exampleWorld (by decide) hin).1 (by decide)⟩

theorem Sync_success_publishes_validated_assets_witness :
    (syncUnchecked.Sync (exampleEnv releaseOne none) "vendor/rel" exampleWorld).1 =
      .ret ({ URL := exampleURL }, none) ∧
    releaseOf (exampleEnv releaseOne none) syncUnchecked exampleWorld = .ok releaseOne ∧
    (∀ a ∈ releaseOne.Assets,
      resolve (exampleEnv releaseOne none).cwd (stagingPath (exampleEnv releaseOne none)) <+:
          resolve (exampleEnv releaseOne none).cwd
            (filepathJoin [stagingPath (exampleEnv releaseOne none), a.Name]) ∧
        resolve (exampleEnv releaseOne none).cwd
            (filepathJoin [stagingPath (exampleEnv releaseOne none), a.Name]) ≠
          resolve (exampleEnv releaseOne none).cwd
            (stagingPath (exampleEnv releaseOne none))) ∧
    (releaseOne.Assets.map (fun a => resolve (exampleEnv releaseOne none).cwd
      (filepathJoin [stagingPath (exampleEnv releaseOne none), a.Name]))).Nodup ∧
    (∀ q, resolve (exampleEnv releaseOne none).cwd (stagingPath (exampleEnv releaseOne none))
        <+: q →
      (syncUnchecked.Sync (exampleEnv releaseOne none) "vendor/rel" exampleWorld).2.fs q =
        none) ∧
    ∃ content,
      (syncUnchecked.Sync (exampleEnv releaseOne none) "vendor/rel" exampleWorld).2.fs
        ["work", "vendor", "rel", "a.yml"] = some (Node.file content) ∧
      (content.length : Int) = 3 := by
  have hok : (syncUnchecked.Sync (exampleEnv releaseOne none) "vendor/rel" exampleWorld).1 =
      .ret ({ URL := exampleURL }, none) := by decide
  have hrel : releaseOf (exampleEnv releaseOne none) syncUnchecked exampleWorld =
      .ok releaseOne := by rfl
  obtain ⟨m, _, _, _, hassets, _, _, _, hgone, _⟩ :=
    Sync_success_publishes_validated_assets (exampleEnv releaseOne none) syncUnchecked
      "vendor/rel" exampleWorld { URL := exampleURL } releaseOne hok hrel (by decide)
      (by decide)
  obtain ⟨content, _, hfile, hlen, _⟩ := hassets
    { Name := "a.yml", Size := 3, BrowserDownloadURL := "https://example.org/three" }
    (by decide)
  have hpath : resolve (exampleEnv releaseOne none).cwd "vendor/rel" ++
      (resolve (exampleEnv releaseOne none).cwd
        (filepathJoin [stagingPath (exampleEnv releaseOne none), "a.yml"])).drop
        (resolve (exampleEnv releaseOne none).cwd
          (stagingPath (exampleEnv releaseOne none))).length =
      ["work", "vendor", "rel", "a.yml"] := by decide
  rw [hpath] at hfile
  exact ⟨hok, hrel, by decide, by decide, hgone, content, hfile, hlen⟩

theorem checkFileChecksum_ok_iff_exact_digest_witness :
    ("e3b0c44298fc1c149afbf4c8996fb92427ae41e4649b934ca495991b7852b855" ≠ "" ∧ "f" ≠ "" ∧
      (exampleEnv releaseOne none).fault 0 = none ∧
      (exampleEnv releaseOne none).fault 1 = none ∧
      nodeAt emptyFileFS (resolve (exampleEnv releaseOne none).cwd "f") =
        some (Node.file [])) ∧
    (GithubReleaseSync.checkFileChecksum (exampleEnv releaseOne none) "f"
      "e3b0c44298fc1c149afbf4c8996fb92427ae41e4649b934ca495991b7852b855"
      { fs := emptyFileFS, clock := 0 }).1 = .ret none :=
  ⟨⟨by decide, by decide, rfl, rfl, by decide⟩,
    (checkFileChecksum_ok_iff_exact_digest (exampleEnv releaseOne none) "f"
      "e3b0c44298fc1c149afbf4c8996fb92427ae41e4649b934ca495991b7852b855"
      { fs := emptyFileFS, clock := 0 } [] (by decide) (by decide) rfl rfl
      (by decide)).1.2 (by decide)⟩

theorem asset_paths_in_staging_witness :
    (∀ a ∈ releaseOne.Assets, staysBelow a.Name = true) ∧
    resolve (exampleEnv releaseOne none).cwd (stagingPath (exampleEnv releaseOne none)) <+:
      resolve (exampleEnv releaseOne none).cwd
        (filepathJoin [stagingPath (exampleEnv releaseOne none), "a.yml"]) :=
  ⟨by decide,
    (asset_paths_in_staging (exampleEnv releaseOne none) syncUnchecked exampleWorld releaseOne
      [] (by decide)).1
      { Name := "a.yml", Size := 3, BrowserDownloadURL := "https://example.org/three" }
      (by decide)⟩

/-! ## The checksum block of the release notes -/

theorem dropWhile_append_stop {α : Type} (p : α → Bool) (pre : List α) (x : α) (rest : List α)
    (hpre : ∀ a ∈ pre, p a = true) (hx : p x = false) :
    (pre ++ x :: rest).dropWhile p = x :: rest := by
  induction pre with
  | nil => simp [List.dropWhile, hx]
  | cons a as ih =>
    simp only [List.cons_append, List.dropWhile, hpre a (by simp)]
    exact ih (fun b hb => hpre b (by simp [hb]))

theorem takeWhile_append_stop {α : Type} (p : α → Bool) (pre : List α) (x : α) (rest : List α)
    (hpre : ∀ a ∈ pre, p a = true) (hx : p x = false) :
    (pre ++ x :: rest).takeWhile p = pre := by
  induction pre with
  | nil => simp [List.takeWhile, hx]
  | cons a as ih =>
    simp only [List.cons_append, List.takeWhile, hpre a (by simp)]
    exact congrArg (List.cons a) (ih (fun b hb => hpre b (by simp [hb])))

theorem dropWhile_append_all {α : Type} (p : α → Bool) (pre rest : List α)
    (hpre : ∀ a ∈ pre, p a = true) : (pre ++ rest).dropWhile p = rest.dropWhile p := by
  induction pre with
  | nil => rfl
  | cons a as ih =>
    simp only [List.cons_append, List.dropWhile, hpre a (by simp)]
    exact ih (fun b hb => hpre b (by simp [hb]))

theorem dropWhile_head_false {α : Type} (p : α → Bool) (l : List α)
    (h : ∀ a, l.head? = some a → p a = false) : l.dropWhile p = l := by
  cases l with
  | nil => rfl
  | cons a as => simp [List.dropWhile, h a rfl]

/-- Trimming removes the white space around a text that neither starts nor ends with
white space. -/
theorem trimSpace_sandwich (sep core trail : List Char) (hsep : ∀ c ∈ sep, isSpace c = true)
    (htrail : ∀ c ∈ trail, isSpace c = true)
    (hhead : ∀ c, core.head? = some c → isSpace c = false)
    (hlast : ∀ c, core.getLast? = some c → isSpace c = false) (hne : core ≠ []) :
    trimSpace (sep ++ (core ++ trail)) = core := by
  unfold trimSpace
  rw [dropWhile_append_all _ _ _ hsep]
  have h1 : (core ++ trail).dropWhile isSpace = core ++ trail := by
    apply dropWhile_head_false
    intro c hc
    cases core with
    | nil => exact absurd rfl hne
    | cons x xs => exact hhead c (by simpa using hc)
  rw [h1, List.reverse_append,
    dropWhile_append_all _ _ _ (fun c hc => htrail c (List.mem_reverse.1 hc))]
  have h2 : core.reverse.dropWhile isSpace = core.reverse := by
    apply dropWhile_head_false
    intro c hc
    rw [List.head?_reverse] at hc
    exact hlast c hc
  rw [h2, List.reverse_reverse]

/-- A line made of a 64-character hex digest, white space, an optional `./` or `/`, a file
name and optional white space is read as that digest and that file name. -/
theorem parseChecksumLine_shape (digest sep pfx name trail : List Char)
    (hlen : digest.length = 64) (hhex : ∀ c ∈ digest, isHexChar c = true)
    (hsep : sep ≠ []) (hsepws : ∀ c ∈ sep, isSpace c = true)
    (hpfx : pfx = [] ∨ pfx = ['.', '/'] ∨ pfx = ['/'])
    (htrail : ∀ c ∈ trail, isSpace c = true) (hname : name ≠ [])
    (hhead : ∀ c, name.head? = some c → isSpace c = false)
    (hlast : ∀ c, name.getLast? = some c → isSpace c = false)
    (hbare : pfx = [] → name.head? ≠ some '/' ∧ ¬ ['.', '/'] <+: name) :
    parseChecksumLine (digest ++ (sep ++ (pfx ++ name ++ trail))) =
      some (String.mk digest, String.mk name) := by
  have htake : (digest ++ (sep ++ (pfx ++ name ++ trail))).take 64 = digest := by
    rw [← hlen]; exact List.take_left _ _
  have hdrop : (digest ++ (sep ++ (pfx ++ name ++ trail))).drop 64 =
      sep ++ (pfx ++ name ++ trail) := by
    rw [← hlen]; exact List.drop_left _ _
  have hsephead : ((sep ++ (pfx ++ name ++ trail)).head?.any isSpace) = true := by
    cases sep with
    | nil => exact absurd rfl hsep
    | cons c cs => simp [hsepws c (by simp)]
  have hcore_ne : pfx ++ name ≠ [] := by simp [hname]
  have hcore_head : ∀ c, (pfx ++ name).head? = some c → isSpace c = false := by
    intro c hc
    rcases hpfx with h | h | h
    · subst h; exact hhead c (by simpa using hc)
    · subst h
      simp at hc
      subst hc
      decide
    · subst h
      simp at hc
      subst hc
      decide
  have hcore_last : ∀ c, (pfx ++ name).getLast? = some c → isSpace c = false := by
    intro c hc
    rw [List.getLast?_append_of_ne_nil _ hname] at hc
    exact hlast c hc
  have htrim : trimSpace (sep ++ (pfx ++ name ++ trail)) = pfx ++ name := by
    rw [List.append_assoc pfx name trail]
    rw [← List.append_assoc pfx name trail]
    exact trimSpace_sandwich sep (pfx ++ name) trail hsepws htrail hcore_head hcore_last hcore_ne
  have hstrip : stripPathPrefix (pfx ++ name) = name := by
    rcases hpfx with h | h | h
    · subst h
      obtain ⟨h1, h2⟩ := hbare rfl
      simp only [List.nil_append]
      cases name with
      | nil => rfl
      | cons a as =>
        have ha : a ≠ '/' := fun e => h1 (by simp [e])
        cases as with
        | nil =>
          unfold stripPathPrefix
          split
          · rename_i heq; simp at heq
          · rename_i heq; simp at heq; exact absurd heq.1 ha
          · rfl
        | cons b bs =>
          unfold stripPathPrefix
          split
          · rename_i rest heq
            simp at heq
            exfalso
            apply h2
            rw [heq.1, heq.2.1]
            exact ⟨bs, by simp⟩
          · rename_i heq; simp at heq; exact absurd heq.1 ha
          · rfl
    · subst h; rfl
    · subst h; rfl
  unfold parseChecksumLine
  simp only [htake, hdrop, hlen, hsephead, htrim, hstrip, true_and, and_true]
  rw [if_pos (List.all_eq_true.2 hhex)]

theorem mapSet_keys (m : List (String × String)) (k v : String) :
    (mapSet m k v).map Prod.fst = k :: (m.map Prod.fst).filter (fun x => x ≠ k) := by
  unfold mapSet
  simp only [List.map_cons, List.filter_map]
  rfl

theorem addChecksumLine_sound (assetNames : List String) (digestOf : String → String)
    (m : List (String × String)) (line : List Char)
    (hm : checksumsSound assetNames digestOf m)
    (hone : ∀ p ∈ parseChecksumLine line, p.2 ∈ assetNames → p.1 = digestOf p.2) :
    checksumsSound assetNames digestOf (addChecksumLine assetNames m line) := by
  unfold addChecksumLine
  cases hp : parseChecksumLine line with
  | none => exact hm
  | some p =>
    obtain ⟨digest, name⟩ := p
    simp only
    split
    · rename_i hmem
      have hd : digest = digestOf name := hone (digest, name) (by simp [hp]) hmem
      constructor
      · rw [mapSet_keys]
        refine List.nodup_cons.2 ⟨?_, hm.1.filter _⟩
        simp [List.mem_filter]
      · intro kv hkv
        unfold mapSet at hkv
        rcases List.mem_cons.1 hkv with e | e
        · subst e; exact ⟨hmem, hd⟩
        · exact hm.2 kv (List.mem_filter.1 e).1
    · exact hm

theorem addChecksumLine_keys_mono (assetNames : List String) (m : List (String × String))
    (line : List Char) (k : String) (hk : k ∈ m.map Prod.fst) :
    k ∈ (addChecksumLine assetNames m line).map Prod.fst := by
  unfold addChecksumLine
  cases hp : parseChecksumLine line with
  | none => exact hk
  | some p =>
    obtain ⟨digest, name⟩ := p
    simp only
    split
    · rw [mapSet_keys]
      by_cases e : k = name
      · subst e; simp
      · exact List.mem_cons_of_mem _ (List.mem_filter.2 ⟨hk, by simpa using e⟩)
    · exact hk

theorem addChecksumLine_adds (assetNames : List String) (m : List (String × String))
    (line : List Char) (digest name : String)
    (hp : parseChecksumLine line = some (digest, name)) (hmem : name ∈ assetNames) :
    name ∈ (addChecksumLine assetNames m line).map Prod.fst := by
  unfold addChecksumLine
  simp only [hp, hmem, if_true]
  rw [mapSet_keys]
  simp

theorem foldl_addChecksumLine_sound (assetNames : List String) (digestOf : String → String)
    (lines : List (List Char)) (m : List (String × String))
    (hm : checksumsSound assetNames digestOf m)
    (hone : ∀ l ∈ lines, ∀ p ∈ parseChecksumLine l, p.2 ∈ assetNames → p.1 = digestOf p.2) :
    checksumsSound assetNames digestOf (lines.foldl (addChecksumLine assetNames) m) := by
  induction lines generalizing m with
  | nil => exact hm
  | cons l ls ih =>
    simp only [List.foldl_cons]
    exact ih _ (addChecksumLine_sound assetNames digestOf m l hm (hone l (by simp)))
      (fun l' hl' => hone l' (by simp [hl']))

theorem foldl_addChecksumLine_keys_mono (assetNames : List String) (lines : List (List Char))
    (m : List (String × String)) (k : String) (hk : k ∈ m.map Prod.fst) :
    k ∈ (lines.foldl (addChecksumLine assetNames) m).map Prod.fst := by
  induction lines generalizing m with
  | nil => exact hk
  | cons l ls ih =>
    simp only [List.foldl_cons]
    exact ih _ (addChecksumLine_keys_mono assetNames m l k hk)

theorem foldl_addChecksumLine_adds (assetNames : List String) (lines : List (List Char))
    (m : List (String × String)) (line : List Char) (digest name : String)
    (hl : line ∈ lines) (hp : parseChecksumLine line = some (digest, name))
    (hmem : name ∈ assetNames) :
    name ∈ (lines.foldl (addChecksumLine assetNames) m).map Prod.fst := by
  induction lines generalizing m with
  | nil => simp at hl
  | cons l ls ih =>
    simp only [List.foldl_cons]
    rcases List.mem_cons.1 hl with e | e
    · subst e
      exact foldl_addChecksumLine_keys_mono assetNames ls _ name
        (addChecksumLine_adds assetNames m line digest name hp hmem)
    · exact ih _ e

theorem lookup_of_key (m : List (String × String)) (k : String) (hk : k ∈ m.map Prod.fst) :
    ∃ v, m.lookup k = some v ∧ (k, v) ∈ m := by
  induction m with
  | nil => simp at hk
  | cons kv rest ih =>
    obtain ⟨k', v'⟩ := kv
    by_cases e : k = k'
    · subst e
      exact ⟨v', by simp [List.lookup], by simp⟩
    · have hk' : k ∈ rest.map Prod.fst := by
        simp at hk
        rcases hk with h | h
        · exact absurd h e
        · simpa using h
      obtain ⟨v, hv, hmem⟩ := ih hk'
      refine ⟨v, ?_, by simp [hmem]⟩
      rw [List.lookup]
      have : (k == k') = false := by simpa using e
      simp [this, hv]

/-- **C8.** For every set of known asset names and every release body whose first
`+++`-delimited block holds, for each known asset, a line naming it (a 64-character hex
digest, white space, and a file name that may carry a leading `./` or `/` and white space
around it), all lines naming one asset carrying one digest: `Find` succeeds and returns a
map with exactly one entry per asset, keyed by the exact asset name and valued by the digest
on that asset's line. Lines outside the block, whatever they are, and block lines naming no
known asset add no entry. Lines of the described shape are read as naming their file name. -/
theorem Find_round_trip (assetNames : List String) (digestOf : String → String)
    (pre block post : List (List Char))
    (hnl : ∀ l ∈ pre ++ block ++ post, '\n' ∉ l)
    (hpre : checksumMarker ∉ pre) (hblock : checksumMarker ∉ block)
    (hline : ∀ n ∈ assetNames, ∃ l ∈ block, parseChecksumLine l = some (digestOf n, n))
    (hone : ∀ l ∈ block, ∀ p ∈ parseChecksumLine l, p.2 ∈ assetNames → p.1 = digestOf p.2) :
    (∃ m, ReleaseNotesChecksums.Find assetNames
          (String.mk (joinChar '\n' (pre ++ checksumMarker :: (block ++ checksumMarker :: post)))) =
        .ok m ∧
      (m.map Prod.fst).Nodup ∧
      (∀ n, n ∈ m.map Prod.fst ↔ n ∈ assetNames) ∧
      (∀ n ∈ assetNames, m.lookup n = some (digestOf n)) ∧
      (∀ n, n ∉ assetNames → m.lookup n = none)) ∧
    (∀ (digest sep pfx name trail : List Char),
      digest.length = 64 → (∀ c ∈ digest, isHexChar c = true) →
      sep ≠ [] → (∀ c ∈ sep, isSpace c = true) →
      (pfx = [] ∨ pfx = ['.', '/'] ∨ pfx = ['/']) →
      (∀ c ∈ trail, isSpace c = true) → name ≠ [] →
      (∀ c, name.head? = some c → isSpace c = false) →
      (∀ c, name.getLast? = some c → isSpace c = false) →
      (pfx = [] → name.head? ≠ some '/' ∧ ¬ ['.', '/'] <+: name) →
      parseChecksumLine (digest ++ (sep ++ (pfx ++ name ++ trail))) =
        some (String.mk digest, String.mk name)) := by
  refine ⟨?_, fun digest sep pfx name trail h1 h2 h3 h4 h5 h6 h7 h8 h9 h10 =>
    parseChecksumLine_shape digest sep pfx name trail h1 h2 h3 h4 h5 h6 h7 h8 h9 h10⟩
  have hmarker : '\n' ∉ checksumMarker := by decide
  have hlines : splitChar '\n'
      (joinChar '\n' (pre ++ checksumMarker :: (block ++ checksumMarker :: post))) =
      pre ++ checksumMarker :: (block ++ checksumMarker :: post) := by
    apply splitChar_joinChar
    · simp
    · intro c hc
      simp only [List.mem_append, List.mem_cons] at hc
      rcases hc with h | h | h | h | h
      · exact hnl c (by simp [h])
      · rw [h]; exact hmarker
      · exact hnl c (by simp [h])
      · rw [h]; exact hmarker
      · exact hnl c (by simp [h])
  have hdrop : (pre ++ checksumMarker :: (block ++ checksumMarker :: post)).dropWhile
      (fun l => decide (l ≠ checksumMarker)) =
      checksumMarker :: (block ++ checksumMarker :: post) := by
    have := dropWhile_append_stop (fun l : List Char => decide (l ≠ checksumMarker)) pre
      checksumMarker (block ++ checksumMarker :: post)
      (fun a ha => by
        have : a ≠ checksumMarker := fun e => hpre (e ▸ ha)
        simpa using this)
      (by simp)
    simpa using this
  have htake : (block ++ checksumMarker :: post).takeWhile
      (fun l => decide (l ≠ checksumMarker)) = block :=
    takeWhile_append_stop _ block checksumMarker post
      (fun a ha => by
        have : a ≠ checksumMarker := fun e => hblock (e ▸ ha)
        simpa using this)
      (by simp)
  have hsound := foldl_addChecksumLine_sound assetNames digestOf block []
    ⟨by simp, by simp⟩ hone
  refine ⟨block.foldl (addChecksumLine assetNames) [], ?_, hsound.1, ?_, ?_, ?_⟩
  · unfold ReleaseNotesChecksums.Find
    simp only [hlines, hdrop]
    rw [if_pos (by simp), htake]
  · intro n
    constructor
    · intro hn
      obtain ⟨kv, hkv, rfl⟩ := List.mem_map.1 hn
      exact (hsound.2 kv hkv).1
    · intro hn
      obtain ⟨l, hl, hp⟩ := hline n hn
      exact foldl_addChecksumLine_adds assetNames block [] l (digestOf n) n hl hp hn
  · intro n hn
    obtain ⟨l, hl, hp⟩ := hline n hn
    have hkey := foldl_addChecksumLine_adds assetNames block [] l (digestOf n) n hl hp hn
    obtain ⟨v, hv, hmem⟩ := lookup_of_key _ n hkey
    have hval := (hsound.2 (n, v) hmem).2
    simp only at hval
    rw [hv, hval]
  · intro n hn
    cases hl : (block.foldl (addChecksumLine assetNames) []).lookup n with
    | none => rfl
    | some v =>
      exfalso
      apply hn
      have : (n, v) ∈ block.foldl (addChecksumLine assetNames) [] := by
        have := List.lookup_eq_some_iff.1 hl
        obtain ⟨l1, l2, h1, _⟩ := this
        rw [h1]; simp
      exact (hsound.2 (n, v) this).1

theorem Find_round_trip_witness :
    String.mk (joinChar '\n' (testPre ++ checksumMarker :: (testBlock ++
        checksumMarker :: testPost))) = testBody ∧
    (∀ l ∈ testPre ++ testBlock ++ testPost, '\n' ∉ l) ∧
    checksumMarker ∉ testPre ∧ checksumMarker ∉ testBlock ∧
    (∀ n ∈ testAssetNames, ∃ l ∈ testBlock,
      parseChecksumLine l = some (testDigestOf n, n)) ∧
    ∃ m, ReleaseNotesChecksums.Find testAssetNames testBody = .ok m ∧
      (∀ n, n ∈ m.map Prod.fst ↔ n ∈ testAssetNames) ∧
      ∀ n ∈ testAssetNames, m.lookup n = some (testDigestOf n) := by
  have hbody : String.mk (joinChar '\n' (testPre ++ checksumMarker :: (testBlock ++
      checksumMarker :: testPost))) = testBody := by decide
  have hone : ∀ l ∈ testBlock, ∀ p ∈ parseChecksumLine l,
      p.2 ∈ testAssetNames → p.1 = testDigestOf p.2 := by decide
  obtain ⟨⟨m, hfind, _, hkeys, hlook, _⟩, _⟩ :=
    Find_round_trip testAssetNames testDigestOf testPre testBlock testPost (by decide)
      (by decide) (by decide) (by decide) hone
  rw [hbody] at hfind
  exact ⟨hbody, by decide, by decide, by decide, by decide, m, hfind, hkeys, hlook⟩

end Vendir
